import Mathlib

/-!
Shallow embedding of the destruct-js binary payload decoder
(src/payload_spec.ts, src/pos_buffer.ts), together with a model of the
leaf type decoders that the interpreter dispatches to.  The interpreter
(`BufferReader`), the instruction variants (`PadInstruction`,
`SkipInstruction`, `EndiannessInstruction`, `DeriveInstruction`,
`IfInstruction`, `Ignorable`, `Literal`) and the positioned buffer
(`PosBuffer`) are translated directly from the TypeScript source.
Definitions whose source (types.ts) is absent from the repository
snapshot are modelled from the specification and marked as such in
their doc comments.
-/

namespace DestructJs

/-- Endianness mode, from `enum Mode { BE, LE }` in payload_spec.ts. -/
inductive Mode : Type where
  | BE
  | LE
deriving DecidableEq, Repr

/-- A JavaScript primitive value as produced by the decoders and stored in
the result / stored mappings: number (modelled on integers), string,
boolean, `null` and `undefined`. -/
inductive Value : Type where
  | num (n : Int)
  | str (s : String)
  | bool (b : Bool)
  | null
  | undef
deriving DecidableEq, Repr

/-- String interpolation of a primitive value, as JavaScript template
literals render it (numbers bare, strings unquoted, booleans as
true/false). -/
def Value.show : Value → String
  | .num n => toString n
  | .str s => s
  | .bool b => if b then "true" else "false"
  | .null => "null"
  | .undef => "undefined"

/-- A JavaScript object used as a mapping: insertion-ordered list of
key/value pairs with unique keys (the result mapping and the stored
mapping of the interpreter). -/
abbrev ObjMap : Type := List (String × Value)

/-- The empty mapping `{}`. -/
def ObjMap.empty : ObjMap := []

/-- Property lookup `m[k]`: the value at the first pair carrying key `k`,
or absence. -/
def ObjMap.getKey : ObjMap → String → Option Value
  | [], _ => none
  | p :: rest, k => if p.1 = k then some p.2 else ObjMap.getKey rest k

/-- Property assignment `m[k] = v`: replaces the value in place if the key
exists, otherwise appends the key at the end (JavaScript object key
insertion order). -/
def ObjMap.setKey : ObjMap → String → Value → ObjMap
  | [], k, v => [(k, v)]
  | p :: rest, k, v =>
    if p.1 = k then (k, v) :: rest else p :: ObjMap.setKey rest k v

/-- Property deletion `delete m[k]`. -/
def ObjMap.delKey : ObjMap → String → ObjMap
  | [], _ => []
  | p :: rest, k =>
    if p.1 = k then ObjMap.delKey rest k else p :: ObjMap.delKey rest k

/-- The spread merge `{ ...a, ...b }` (also `Object.assign(a, b)`): start
from `a` and assign every key of `b` in order, so on a key collision the
value from `b` wins. -/
def ObjMap.spreadMerge (a b : ObjMap) : ObjMap :=
  b.foldl (fun acc p => acc.setKey p.1 p.2) a

/-- A byte buffer: the sequence of bytes handed to `exec`. -/
abbrev Buf : Type := List Nat

/-- A cursor position: byte offset plus bit offset, as kept by
`BufferReader` (fields `byteOffset`, `bitOffset`). -/
structure Pos : Type where
  bytes : Nat
  bits : Nat
deriving DecidableEq, Repr

/-- Method `BufferReader.addOffset`: convert to total bits, add the instruction
size, and renormalize into byte/bit form. -/
def Pos.addOffset (p : Pos) (bitSize : Nat) : Pos :=
  let currentOffsetInBits := p.bytes * 8 + p.bits
  let updatedOffsetInBits := currentOffsetInBits + bitSize
  ⟨updatedOffsetInBits / 8, updatedOffsetInBits % 8⟩

/-- Total position in bits, `byteOffset * 8 + bitOffset`. -/
def Pos.totalBits (p : Pos) : Nat := p.bytes * 8 + p.bits

/-- The kinds of error the engine throws (§7): the cursor-level
out-of-bounds read error of `PosBuffer.read`, a leaf decoder running past
the buffer end, a byte-oriented read at a non-zero bit offset, and a
`shouldBe` validation mismatch. -/
inductive Err : Type where
  | readOutside
  | decodeOob
  | alignment (bits : Nat)
  | validation (name : String) (expected actual : Value)
deriving DecidableEq, Repr

/-- The exact message string each thrown `Error` carries: the
out-of-bounds and alignment texts come from pos_buffer.ts and the test
suite; the validation shape is the user-visible contract
`Expected <name> to be <expected> but was <actual>`. -/
def Err.message : Err → String
  | .readOutside => "Attempt to read outside of the buffer"
  | .decodeOob => "Attempt to access memory outside buffer bounds"
  | .alignment bits =>
    "Buffer position is not at a byte boundary (bit offset " ++ toString bits ++
      "). Do you need to use pad()?"
  | .validation n e a =>
    "Expected " ++ n ++ " to be " ++ e.show ++ " but was " ++ a.show

/-- Modelled from the spec: the leaf data type kinds used by the claims
(types.ts is absent from this snapshot; §4.2 fixes each kind's bit width
and decode formula). -/
inductive DataType : Type where
  | uint8
  | uint16
  | boolT
  | bits (w : Nat)
deriving DecidableEq, Repr

/-- Modelled from the spec: `bitSize` of each data type kind (§4.2). -/
def DataType.bitSize : DataType → Nat
  | .uint8 => 8
  | .uint16 => 16
  | .boolT => 1
  | .bits w => w

/-- Bit `idx` of the buffer counted from bit 0 of byte 0, most significant
bit first within each byte. -/
def bitAt (buf : Buf) (idx : Nat) : Nat :=
  ((buf.getD (idx / 8) 0) >>> (7 - idx % 8)) % 2

/-- Read `w` bits starting at absolute bit `start`, most-significant-bit
first, spanning byte boundaries. -/
def readBitsMSB (buf : Buf) (start w : Nat) : Nat :=
  (List.range w).foldl (fun acc j => acc * 2 + bitAt buf (start + j)) 0

/-- Modelled from the spec: decoding one value at a position under an
endianness mode (§4.2): byte-oriented kinds require byte alignment and
report bounds overruns; bit fields read MSB-first from any bit position. -/
def DataType.decode : DataType → Buf → Pos → Mode → Except Err Value
  | .uint8, buf, p, _ =>
    if p.bits ≠ 0 then .error (.alignment p.bits)
    else if p.bytes + 1 > buf.length then .error .decodeOob
    else .ok (.num (buf.getD p.bytes 0))
  | .uint16, buf, p, m =>
    if p.bits ≠ 0 then .error (.alignment p.bits)
    else if p.bytes + 2 > buf.length then .error .decodeOob
    else
      let b0 : Int := buf.getD p.bytes 0
      let b1 : Int := buf.getD (p.bytes + 1) 0
      .ok (.num (match m with
        | .BE => b0 * 256 + b1
        | .LE => b1 * 256 + b0))
  | .boolT, buf, p, _ =>
    if p.totalBits + 1 > buf.length * 8 then .error .decodeOob
    else .ok (.bool (bitAt buf p.totalBits = 1))
  | .bits w, buf, p, _ =>
    if p.totalBits + w > buf.length * 8 then .error .decodeOob
    else .ok (.num (readBitsMSB buf p.totalBits w))

/-- Modelled from the spec: per-field options recognized by the decoders
(§6): `then` is the post-decode transform, `shouldBe` the expected
value. -/
structure FieldOptions : Type where
  thenFn : Option (Value → Value) := none
  shouldBe : Option Value := none

/-- The instruction variants of payload_spec.ts.  `fieldI` stands for the
data type instruction classes of types.ts (absent from the snapshot,
modelled from §4.3); `padI` carries the mutable `_size` field of
`PadInstruction`; `ifI` carries the nested `PayloadSpec` (its mode and
instruction list); `switchI` is modelled from §4.3 (the class is absent
from the snapshot). -/
inductive Instruction : Type where
  | fieldI (name : String) (ty : DataType) (opts : FieldOptions)
  | literalI (name : String) (v : Value)
  | ignorable (inner : Instruction)
  | deriveI (name : String) (cb : ObjMap → Value)
  | skipI (bytes : Nat)
  | padI (cachedSize : Nat)
  | endiannessI (m : Mode)
  | ifI (pred : ObjMap → Bool) (m : Mode) (nested : List Instruction)
  | switchI (keyFn : ObjMap → String) (table : List (String × Mode × List Instruction))
      (dflt : Option (Mode × List Instruction))

/-- Accessor `Instruction.name`: the result-placement name (null for
Skip/Pad/Endianness/If/Switch; `Ignorable` delegates to its wrapped
instruction). -/
def Instruction.nameOf : Instruction → Option String
  | .fieldI n _ _ => some n
  | .literalI n _ => some n
  | .ignorable inner => inner.nameOf
  | .deriveI n _ => some n
  | .skipI _ => none
  | .padI _ => none
  | .endiannessI _ => none
  | .ifI _ _ _ => none
  | .switchI _ _ _ => none

/-- Accessor `Instruction.size`: the bit-size contribution read by the dispatch
loop after executing the instruction.  For `padI` this is the mutable
`_size` field as currently cached; `Ignorable` delegates to its wrapped
instruction. -/
def Instruction.sizeOfI : Instruction → Nat
  | .fieldI _ ty _ => ty.bitSize
  | .literalI _ _ => 0
  | .ignorable inner => inner.sizeOfI
  | .deriveI _ _ => 0
  | .skipI bytes => bytes * 8
  | .padI cachedSize => cachedSize
  | .endiannessI _ => 0
  | .ifI _ _ _ => 0
  | .switchI _ _ _ => 0

/-- The reader state threaded through each dispatch: result mapping,
stored mapping, cursor position and active mode. -/
structure RunState : Type where
  result : ObjMap
  stored : ObjMap
  pos : Pos
  mode : Mode

/-- Outcome of executing one instruction: the updated result and stored
mappings plus the instruction object as mutated by the execution (the
pad size cache and the caches inside nested programs). -/
structure ExecOut : Type where
  result : ObjMap
  stored : ObjMap
  instr : Instruction

/-- Outcome of running an instruction list: final mappings, final cursor
position, final mode, and the instruction objects as mutated by the
run. -/
structure RunOut : Type where
  result : ObjMap
  stored : ObjMap
  pos : Pos
  mode : Mode
  instrs : List Instruction

mutual

/-- Method `Instruction.execute(buffer, readerState)` for each variant, translated
from payload_spec.ts (Field variants modelled from §4.3 since types.ts is
absent): fields decode, transform, validate `shouldBe` and assign;
`Ignorable` runs its wrapped instruction then moves the named value from
the result mapping into the stored mapping; `DeriveInstruction` calls its
callback on the spread merge of the two mappings; `PadInstruction` sets
its `_size` cache to `8 - bitOffset`; `IfInstruction` evaluates its
predicate on the merge and, when true, executes the nested spec against
`buffer.slice(byteOffset)` and `Object.assign`s the nested result in;
skip and endianness have the inert `NullInstruction` behavior. -/
def execInstr (buf : Buf) (st : RunState) : Instruction → Except Err ExecOut
  | .fieldI n ty opts =>
    match ty.decode buf st.pos st.mode with
    | .error e => .error e
    | .ok v =>
      let v' := match opts.thenFn with
        | some f => f v
        | none => v
      match opts.shouldBe with
      | some e =>
        if v' = e then
          .ok ⟨st.result.setKey n v', st.stored, .fieldI n ty opts⟩
        else
          .error (.validation n e v')
      | none => .ok ⟨st.result.setKey n v', st.stored, .fieldI n ty opts⟩
  | .literalI n v => .ok ⟨st.result.setKey n v, st.stored, .literalI n v⟩
  | .ignorable inner =>
    match execInstr buf st inner with
    | .error e => .error e
    | .ok out =>
      match inner.nameOf with
      | some n =>
        if n = "" then .ok ⟨out.result, out.stored, .ignorable out.instr⟩
        else
          .ok ⟨out.result.delKey n,
               out.stored.setKey n ((out.result.getKey n).getD .undef),
               .ignorable out.instr⟩
      | none => .ok ⟨out.result, out.stored, .ignorable out.instr⟩
  | .deriveI n cb =>
    let combinedVars := st.result.spreadMerge st.stored
    .ok ⟨st.result.setKey n (cb combinedVars), st.stored, .deriveI n cb⟩
  | .skipI bytes => .ok ⟨st.result, st.stored, .skipI bytes⟩
  | .padI _ => .ok ⟨st.result, st.stored, .padI (8 - st.pos.bits)⟩
  | .endiannessI m => .ok ⟨st.result, st.stored, .endiannessI m⟩
  | .ifI pred m nested =>
    if pred (st.result.spreadMerge st.stored) then
      match runList (buf.drop st.pos.bytes) ⟨.empty, .empty, ⟨0, 0⟩, m⟩ nested with
      | .error e => .error e
      | .ok o => .ok ⟨st.result.spreadMerge o.result, st.stored, .ifI pred m o.instrs⟩
    else
      .ok ⟨st.result, st.stored, .ifI pred m nested⟩
  | .switchI keyFn table none =>
    let key := keyFn (st.result.spreadMerge st.stored)
    match execTable (buf.drop st.pos.bytes) key table with
    | .error e => .error e
    | .ok (some o, table') =>
      .ok ⟨st.result.spreadMerge o.result, st.stored, .switchI keyFn table' none⟩
    | .ok (none, table') => .ok ⟨st.result, st.stored, .switchI keyFn table' none⟩
  | .switchI keyFn table (some (m, prog)) =>
    let key := keyFn (st.result.spreadMerge st.stored)
    match execTable (buf.drop st.pos.bytes) key table with
    | .error e => .error e
    | .ok (some o, table') =>
      .ok ⟨st.result.spreadMerge o.result, st.stored, .switchI keyFn table' (some (m, prog))⟩
    | .ok (none, table') =>
      match runList (buf.drop st.pos.bytes) ⟨.empty, .empty, ⟨0, 0⟩, m⟩ prog with
      | .error e => .error e
      | .ok o =>
        .ok ⟨st.result.spreadMerge o.result, st.stored,
             .switchI keyFn table' (some (m, o.instrs))⟩

/-- Modelled from the spec: look the stringified key up in the switch
table; on the first match run that nested program identically to the
Conditional true branch (§4.3). -/
def execTable (buf : Buf) (key : String) :
    List (String × Mode × List Instruction) →
    Except Err (Option RunOut × List (String × Mode × List Instruction))
  | [] => .ok (none, [])
  | (k, m, prog) :: rest =>
    if k = key then
      match runList buf ⟨.empty, .empty, ⟨0, 0⟩, m⟩ prog with
      | .error e => .error e
      | .ok o => .ok (some o, (k, m, o.instrs) :: rest)
    else
      match execTable buf key rest with
      | .error e => .error e
      | .ok (r, rest') => .ok (r, (k, m, prog) :: rest')

/-- The dispatch loop of `BufferReader.read`: an `EndiannessInstruction`
is intercepted (sets `_mode`, `continue` — no execute call and no offset
update); every other instruction is executed with a reader state holding
the current mappings, mode and offset, after which the cursor advances by
the instruction's (post-execution) size. -/
def runList (buf : Buf) (st : RunState) : List Instruction → Except Err RunOut
  | [] => .ok ⟨st.result, st.stored, st.pos, st.mode, []⟩
  | i :: rest =>
    match i with
    | .endiannessI m' =>
      match runList buf { st with mode := m' } rest with
      | .error e => .error e
      | .ok o => .ok { o with instrs := .endiannessI m' :: o.instrs }
    | _ =>
      match execInstr buf st i with
      | .error e => .error e
      | .ok eo =>
        match runList buf ⟨eo.result, eo.stored, st.pos.addOffset eo.instr.sizeOfI, st.mode⟩ rest with
        | .error e => .error e
        | .ok o => .ok { o with instrs := eo.instr :: o.instrs }

end

/-- A `PayloadSpec`: the constructor mode plus the accumulated
instruction list. -/
structure PayloadSpec : Type where
  mode : Mode
  instructions : List Instruction

/-- Method `PayloadSpec.exec`: create a fresh `BufferReader` (offsets zero, empty
mappings, the spec's mode) and run the instruction list.  Returns the
full run outcome; the TypeScript method returns only the result
mapping. -/
def PayloadSpec.execFull (spec : PayloadSpec) (buf : Buf) : Except Err RunOut :=
  runList buf ⟨.empty, .empty, ⟨0, 0⟩, spec.mode⟩ spec.instructions

/-- The result mapping returned by `PayloadSpec.exec`. -/
def PayloadSpec.execResult (spec : PayloadSpec) (buf : Buf) : Except Err ObjMap :=
  (spec.execFull buf).map (fun o => o.result)

/-- The positioned buffer of pos_buffer.ts: the underlying byte buffer, the
current byte and bit offsets, and the endianness option. -/
structure PosBuffer : Type where
  buffer : Buf
  offsetBytes : Nat
  offsetBits : Nat
  mode : Mode := .BE
deriving DecidableEq, Repr

/-- The bounds guard at the top of `PosBuffer.read`:
`this.offsetBytes > this._buffer.length - 1` (JavaScript number
subtraction, so the comparison is over integers). -/
def PosBuffer.readGuardFails (pb : PosBuffer) : Prop :=
  (pb.offsetBytes : Int) > (pb.buffer.length : Int) - 1

instance (pb : PosBuffer) : Decidable pb.readGuardFails := by
  unfold PosBuffer.readGuardFails
  infer_instance

/-- Method `PosBuffer.read`: throw the out-of-bounds read error when the guard
fires, otherwise decode one value at the current offset (the data
instruction's `execute`), apply the `then` transform if present, and
advance the offset by the data type's size. -/
def PosBuffer.read (pb : PosBuffer) (ty : DataType) (opts : FieldOptions) :
    Except Err (Value × PosBuffer) :=
  if pb.readGuardFails then .error .readOutside
  else
    match ty.decode pb.buffer ⟨pb.offsetBytes, pb.offsetBits⟩ pb.mode with
    | .error e => .error e
    | .ok v =>
      let thennedValue := match opts.thenFn with
        | some f => f v
        | none => v
      let p := (Pos.mk pb.offsetBytes pb.offsetBits).addOffset ty.bitSize
      .ok (thennedValue, { pb with offsetBytes := p.bytes, offsetBits := p.bits })

/-- Method `PosBuffer.pad`: only when the bit offset is non-zero, move to the
start of the next byte. -/
def PosBuffer.pad (pb : PosBuffer) : PosBuffer :=
  if pb.offsetBits ≠ 0 then
    { pb with offsetBytes := pb.offsetBytes + 1, offsetBits := 0 }
  else pb

/-! ### Mapping lemmas -/

/-- Looking up the key just assigned yields the assigned value. -/
theorem ObjMap.getKey_setKey_self (m : ObjMap) (k : String) (v : Value) :
    (m.setKey k v).getKey k = some v := by
  induction m with
  | nil => simp [ObjMap.setKey, ObjMap.getKey]
  | cons p rest ih =>
    by_cases hp : p.1 = k
    · simp [ObjMap.setKey, ObjMap.getKey, hp]
    · simp [ObjMap.setKey, ObjMap.getKey, hp, ih]

/-- Assigning one key leaves lookups of other keys unchanged. -/
theorem ObjMap.getKey_setKey_ne (m : ObjMap) (k k' : String) (v : Value)
    (h : k' ≠ k) : (m.setKey k v).getKey k' = m.getKey k' := by
  induction m with
  | nil => simp [ObjMap.setKey, ObjMap.getKey, Ne.symm h]
  | cons p rest ih =>
    by_cases hp : p.1 = k
    · simp [ObjMap.setKey, ObjMap.getKey, hp, Ne.symm h, h]
    · by_cases hp' : p.1 = k'
      · simp [ObjMap.setKey, ObjMap.getKey, hp, hp', h]
      · simp [ObjMap.setKey, ObjMap.getKey, hp, hp', ih]

/-- Deleting one key leaves lookups of other keys unchanged. -/
theorem ObjMap.getKey_delKey_ne (m : ObjMap) (k k' : String)
    (h : k' ≠ k) : (m.delKey k).getKey k' = m.getKey k' := by
  induction m with
  | nil => simp [ObjMap.delKey]
  | cons p rest ih =>
    by_cases hp : p.1 = k
    · have hp' : p.1 ≠ k' := by rw [hp]; exact Ne.symm h
      simp [ObjMap.delKey, ObjMap.getKey, hp, hp', ih, Ne.symm h]
    · by_cases hp' : p.1 = k'
      · simp [ObjMap.delKey, ObjMap.getKey, hp, hp', h]
      · simp [ObjMap.delKey, ObjMap.getKey, hp, hp', ih]

/-- The deleted key is absent afterwards. -/
theorem ObjMap.getKey_delKey_self (m : ObjMap) (k : String) :
    (m.delKey k).getKey k = none := by
  induction m with
  | nil => simp [ObjMap.delKey, ObjMap.getKey]
  | cons p rest ih =>
    by_cases hp : p.1 = k
    · simp [ObjMap.delKey, hp, ih]
    · simp [ObjMap.delKey, ObjMap.getKey, hp, ih]

/-- The value at key `k` of the last pair carrying `k`, or absence: the
value a chain of assignments in list order leaves at `k`. -/
def ObjMap.lastVal : ObjMap → String → Option Value
  | [], _ => none
  | p :: rest, k =>
    match ObjMap.lastVal rest k with
    | some v => some v
    | none => if p.1 = k then some p.2 else none

/-- Unfolding equation for `lastVal` at a cons cell. -/
theorem ObjMap.lastVal_cons (p : String × Value) (rest : ObjMap) (k : String) :
    ObjMap.lastVal (p :: rest) k =
      match ObjMap.lastVal rest k with
      | some v => some v
      | none => if p.1 = k then some p.2 else none := rfl

/-- Spread-merge lookup: a key present in `b` resolves to its last
occurrence in `b`, and otherwise falls back to `a` — assignments from the
second spread operand win on collision. -/
theorem ObjMap.getKey_spreadMerge (a b : ObjMap) (k : String) :
    (a.spreadMerge b).getKey k =
      match b.lastVal k with
      | some v => some v
      | none => a.getKey k := by
  induction b generalizing a with
  | nil => simp [ObjMap.spreadMerge, ObjMap.lastVal]
  | cons p rest ih =>
    show ((a.setKey p.1 p.2).spreadMerge rest).getKey k = _
    rw [ih, ObjMap.lastVal_cons]
    cases hrest : ObjMap.lastVal rest k with
    | some v => simp
    | none =>
      by_cases hp : p.1 = k
      · subst hp
        simp [ObjMap.getKey_setKey_self]
      · simp [hp, ObjMap.getKey_setKey_ne _ _ _ _ (Ne.symm hp)]

/-- A key is absent from the last-assignment view exactly when it is absent
from the lookup view. -/
theorem ObjMap.lastVal_eq_none_iff (m : ObjMap) (k : String) :
    m.lastVal k = none ↔ m.getKey k = none := by
  induction m with
  | nil => simp [ObjMap.lastVal, ObjMap.getKey]
  | cons p rest ih =>
    rw [ObjMap.lastVal_cons]
    cases hrest : ObjMap.lastVal rest k with
    | some v =>
      have hne : ObjMap.getKey rest k ≠ none := by
        intro hnone
        rw [ih.mpr hnone] at hrest
        cases hrest
      by_cases hp : p.1 = k <;> simp [ObjMap.getKey, hp, hne]
    | none =>
      by_cases hp : p.1 = k <;> simp [ObjMap.getKey, hp, ih.mp hrest]

/-- A key that occurs nowhere in the mapping looks up to absence. -/
theorem ObjMap.getKey_eq_none_of_not_mem (m : ObjMap) (k : String)
    (h : k ∉ m.map Prod.fst) : ObjMap.getKey m k = none := by
  induction m with
  | nil => rfl
  | cons p rest ih =>
    simp only [List.map_cons, List.mem_cons, not_or] at h
    have hp : p.1 ≠ k := fun hpk => h.1 hpk.symm
    simp only [ObjMap.getKey, hp, if_false]
    exact ih h.2

/-- For a mapping whose keys are unique, the last-assignment view agrees
with ordinary lookup. -/
theorem ObjMap.lastVal_eq_getKey_of_nodup (m : ObjMap) (k : String)
    (h : (m.map Prod.fst).Nodup) : m.lastVal k = m.getKey k := by
  induction m with
  | nil => rfl
  | cons p rest ih =>
    simp only [List.map_cons, List.nodup_cons] at h
    rw [ObjMap.lastVal_cons]
    by_cases hp : p.1 = k
    · have hnone : ObjMap.getKey rest k = none := by
        apply ObjMap.getKey_eq_none_of_not_mem
        rw [← hp]
        exact h.1
      rw [(ObjMap.lastVal_eq_none_iff rest k).mpr hnone]
      simp [ObjMap.getKey, hp, hnone]
    · rw [ih h.2]
      cases hrest : ObjMap.getKey rest k with
      | some v => simp [ObjMap.getKey, hp, hrest]
      | none => simp [ObjMap.getKey, hp, hrest]

/-! ### Interpreter composition and cursor accounting -/

/-- The reader state a finished run hands to a continuation of the same
dispatch loop. -/
def RunOut.toState (o : RunOut) : RunState :=
  ⟨o.result, o.stored, o.pos, o.mode⟩

/-- Continue a run outcome with further instructions, accumulating the
executed instruction objects. -/
def contRun (buf : Buf) (ys : List Instruction) :
    Except Err RunOut → Except Err RunOut
  | .error e => .error e
  | .ok o =>
    match runList buf ⟨o.result, o.stored, o.pos, o.mode⟩ ys with
    | .error e => .error e
    | .ok o2 => .ok ⟨o2.result, o2.stored, o2.pos, o2.mode, o.instrs ++ o2.instrs⟩

/-- Dispatch step for an endianness switch: set the mode and continue,
with no execute call and no offset update. -/
theorem runList_cons_endianness (buf : Buf) (st : RunState) (m' : Mode)
    (rest : List Instruction) :
    runList buf st (.endiannessI m' :: rest) =
      match runList buf { st with mode := m' } rest with
      | .error e => .error e
      | .ok o => .ok { o with instrs := .endiannessI m' :: o.instrs } := rfl

/-- Dispatch step for every instruction other than an endianness switch:
execute it against the current reader state, then advance the cursor by
the executed instruction's size and continue. -/
theorem runList_cons_generic (buf : Buf) (st : RunState) (i : Instruction)
    (rest : List Instruction) (hi : ∀ m, i ≠ .endiannessI m) :
    runList buf st (i :: rest) =
      match execInstr buf st i with
      | .error e => .error e
      | .ok eo =>
        match runList buf ⟨eo.result, eo.stored, st.pos.addOffset eo.instr.sizeOfI, st.mode⟩ rest with
        | .error e => .error e
        | .ok o => .ok { o with instrs := eo.instr :: o.instrs } := by
  cases i with
  | endiannessI m => exact absurd rfl (hi m)
  | fieldI n ty opts => rfl
  | literalI n v => rfl
  | ignorable inner => rfl
  | deriveI n cb => rfl
  | skipI b => rfl
  | padI c => rfl
  | ifI p m nested => rfl
  | switchI kf table dflt => rfl

/-- The dispatch loop processes a concatenated instruction list by
processing the first part and continuing with the second from the state
the first part left behind. -/
theorem runList_append (buf : Buf) (xs ys : List Instruction) (st : RunState) :
    runList buf st (xs ++ ys) = contRun buf ys (runList buf st xs) := by
  induction xs generalizing st with
  | nil =>
    show runList buf st ys =
      (match runList buf st ys with
       | .error e => .error e
       | .ok o2 => .ok ⟨o2.result, o2.stored, o2.pos, o2.mode, [] ++ o2.instrs⟩)
    cases runList buf st ys with
    | error e => rfl
    | ok o2 => simp
  | cons i rest ih =>
    by_cases hend : ∃ m, i = .endiannessI m
    · obtain ⟨m', rfl⟩ := hend
      rw [List.cons_append, runList_cons_endianness, runList_cons_endianness, ih]
      cases runList buf { st with mode := m' } rest with
      | error e => rfl
      | ok o =>
        dsimp only [contRun]
        cases runList buf (⟨o.result, o.stored, o.pos, o.mode⟩ : RunState) ys with
        | error e => rfl
        | ok o2 => rfl
    · push_neg at hend
      rw [List.cons_append, runList_cons_generic buf st i _ hend,
        runList_cons_generic buf st i _ hend]
      cases execInstr buf st i with
      | error e => rfl
      | ok eo =>
        dsimp only
        rw [ih]
        cases runList buf ⟨eo.result, eo.stored, st.pos.addOffset eo.instr.sizeOfI, st.mode⟩ rest with
        | error e => rfl
        | ok o =>
          dsimp only [contRun]
          cases runList buf (⟨o.result, o.stored, o.pos, o.mode⟩ : RunState) ys with
          | error e => rfl
          | ok o2 => rfl

/-- Advancing the offset adds exactly the advanced bits to the total bit
position; the byte/bit renormalization loses nothing. -/
theorem Pos.totalBits_addOffset (p : Pos) (s : Nat) :
    (p.addOffset s).totalBits = p.totalBits + s := by
  simp only [Pos.addOffset, Pos.totalBits]
  omega

/-- The total number of bits a list of (post-execution) instruction objects
contributes to the cursor advance. -/
def sumSizes (l : List Instruction) : Nat :=
  (l.map Instruction.sizeOfI).sum

/-- Cursor accounting: a successful run leaves the cursor exactly the sum
of the executed instructions' sizes past its starting position. -/
theorem runList_totalBits (buf : Buf) (l : List Instruction) :
    ∀ st o, runList buf st l = .ok o →
      o.pos.totalBits = st.pos.totalBits + sumSizes o.instrs := by
  induction l with
  | nil =>
    intro st o h
    unfold runList at h
    injection h with h2
    subst h2
    simp [sumSizes]
  | cons i rest ih =>
    intro st o h
    by_cases hend : ∃ m, i = .endiannessI m
    · obtain ⟨m', rfl⟩ := hend
      rw [runList_cons_endianness] at h
      cases h1 : runList buf { st with mode := m' } rest with
      | error e => rw [h1] at h; cases h
      | ok o1 =>
        rw [h1] at h
        injection h with h2
        subst h2
        have := ih { st with mode := m' } o1 h1
        simpa [sumSizes, Instruction.sizeOfI] using this
    · push_neg at hend
      rw [runList_cons_generic buf st i rest hend] at h
      cases h0 : execInstr buf st i with
      | error e => rw [h0] at h; cases h
      | ok eo =>
        rw [h0] at h
        dsimp only at h
        cases h1 : runList buf ⟨eo.result, eo.stored, st.pos.addOffset eo.instr.sizeOfI, st.mode⟩ rest with
        | error e => rw [h1] at h; cases h
        | ok o1 =>
          rw [h1] at h
          injection h with h2
          subst h2
          have hrest := ih _ o1 h1
          simp only [Pos.totalBits_addOffset] at hrest
          simp only [sumSizes, List.map_cons, List.sum_cons] at hrest ⊢
          omega

/-! ### Pad size caches

`PadInstruction` carries a mutable `_size` field, the only state on
instruction objects that survives one execution and is visible to the
next.  `clearI` erases every such cache; two instruction trees with equal
erasures behave identically. -/

mutual

/-- Erase the pad size caches of an instruction, including those inside
nested programs. -/
def clearI : Instruction → Instruction
  | .fieldI n ty opts => .fieldI n ty opts
  | .literalI n v => .literalI n v
  | .ignorable inner => .ignorable (clearI inner)
  | .deriveI n cb => .deriveI n cb
  | .skipI b => .skipI b
  | .padI _ => .padI 0
  | .endiannessI m => .endiannessI m
  | .ifI p m nested => .ifI p m (clearL nested)
  | .switchI kf table dflt => .switchI kf (clearT table) (clearD dflt)

/-- Erase the pad size caches of an instruction list. -/
def clearL : List Instruction → List Instruction
  | [] => []
  | i :: rest => clearI i :: clearL rest

/-- Erase the pad size caches of a switch table. -/
def clearT : List (String × Mode × List Instruction) →
    List (String × Mode × List Instruction)
  | [] => []
  | (k, m, prog) :: rest => (k, m, clearL prog) :: clearT rest

/-- Erase the pad size caches of an optional default program. -/
def clearD : Option (Mode × List Instruction) → Option (Mode × List Instruction)
  | none => none
  | some (m, prog) => some (m, clearL prog)

end

mutual

/-- Erasing pad caches is idempotent. -/
theorem clearI_idem : ∀ i, clearI (clearI i) = clearI i
  | .fieldI _ _ _ => rfl
  | .literalI _ _ => rfl
  | .ignorable inner => by
    simp only [clearI]
    rw [clearI_idem inner]
  | .deriveI _ _ => rfl
  | .skipI _ => rfl
  | .padI _ => rfl
  | .endiannessI _ => rfl
  | .ifI p m nested => by
    simp only [clearI]
    rw [clearL_idem nested]
  | .switchI kf table dflt => by
    simp only [clearI]
    rw [clearT_idem table, clearD_idem dflt]

/-- Erasing pad caches of a list is idempotent. -/
theorem clearL_idem : ∀ l, clearL (clearL l) = clearL l
  | [] => rfl
  | i :: rest => by
    simp only [clearL]
    rw [clearI_idem i, clearL_idem rest]

/-- Erasing pad caches of a table is idempotent. -/
theorem clearT_idem : ∀ t, clearT (clearT t) = clearT t
  | [] => rfl
  | (k, m, prog) :: rest => by
    simp only [clearT]
    rw [clearL_idem prog, clearT_idem rest]

/-- Erasing pad caches of a default program is idempotent. -/
theorem clearD_idem : ∀ d, clearD (clearD d) = clearD d
  | none => rfl
  | some (m, prog) => by
    simp only [clearD]
    rw [clearL_idem prog]

end

/-- Cache erasure touches no instruction's name. -/
theorem nameOf_clearI : ∀ i, (clearI i).nameOf = i.nameOf
  | .fieldI _ _ _ => rfl
  | .literalI _ _ => rfl
  | .ignorable inner => by
    simp only [clearI, Instruction.nameOf]
    exact nameOf_clearI inner
  | .deriveI _ _ => rfl
  | .skipI _ => rfl
  | .padI _ => rfl
  | .endiannessI _ => rfl
  | .ifI _ _ _ => rfl
  | .switchI _ _ _ => rfl

/-- Cache erasure preserves being distinct from every endianness switch. -/
theorem clearI_preserves_not_endianness (i : Instruction)
    (h : ∀ m, i ≠ .endiannessI m) : ∀ m, clearI i ≠ .endiannessI m := by
  cases i with
  | endiannessI m => exact h
  | fieldI n ty opts => intro m hm; cases hm
  | literalI n v => intro m hm; cases hm
  | ignorable inner => intro m hm; cases hm
  | deriveI n cb => intro m hm; cases hm
  | skipI b => intro m hm; cases hm
  | padI c => intro m hm; cases hm
  | ifI p mm nested => intro m hm; cases hm
  | switchI kf table dflt => intro m hm; cases hm

/-- Cons one executed instruction object onto a continued run outcome. -/
def consOut (x : Instruction) : Except Err RunOut → Except Err RunOut
  | .error e => .error e
  | .ok o => .ok { o with instrs := x :: o.instrs }

/-- The endianness dispatch step, phrased with `consOut`. -/
theorem runList_cons_endianness_consOut (buf : Buf) (st : RunState) (m' : Mode)
    (rest : List Instruction) :
    runList buf st (.endiannessI m' :: rest) =
      consOut (.endiannessI m') (runList buf { st with mode := m' } rest) := by
  rw [runList_cons_endianness]
  cases runList buf { st with mode := m' } rest with
  | error e => rfl
  | ok o => rfl

/-- The generic dispatch step, phrased with `consOut`. -/
theorem runList_cons_generic_consOut (buf : Buf) (st : RunState) (i : Instruction)
    (rest : List Instruction) (hi : ∀ m, i ≠ .endiannessI m) :
    runList buf st (i :: rest) =
      match execInstr buf st i with
      | .error e => .error e
      | .ok eo =>
        consOut eo.instr (runList buf ⟨eo.result, eo.stored, st.pos.addOffset eo.instr.sizeOfI, st.mode⟩ rest) := by
  rw [runList_cons_generic buf st i rest hi]
  cases execInstr buf st i with
  | error e => rfl
  | ok eo =>
    dsimp only
    cases runList buf ⟨eo.result, eo.stored, st.pos.addOffset eo.instr.sizeOfI, st.mode⟩ rest with
    | error e => rfl
    | ok o => rfl

/-! ### Observable agreement up to pad caches -/

/-- Agreement of two single-instruction outcomes: same error, or equal
mappings with cache-equal updated instruction objects of equal size. -/
def execAgree : Except Err ExecOut → Except Err ExecOut → Prop
  | .error e, .error e' => e = e'
  | .ok o, .ok o' =>
    o.result = o'.result ∧ o.stored = o'.stored ∧
      clearI o.instr = clearI o'.instr ∧ o.instr.sizeOfI = o'.instr.sizeOfI
  | _, _ => False

/-- Agreement of two run outcomes: same error, or equal mappings, cursor
and mode with cache-equal updated instruction lists. -/
def runAgree : Except Err RunOut → Except Err RunOut → Prop
  | .error e, .error e' => e = e'
  | .ok o, .ok o' =>
    o.result = o'.result ∧ o.stored = o'.stored ∧ o.pos = o'.pos ∧
      o.mode = o'.mode ∧ clearL o.instrs = clearL o'.instrs
  | _, _ => False

/-- Agreement of two optional branch outcomes. -/
def optAgree : Option RunOut → Option RunOut → Prop
  | none, none => True
  | some o, some o' =>
    o.result = o'.result ∧ o.stored = o'.stored ∧ o.pos = o'.pos ∧
      o.mode = o'.mode ∧ clearL o.instrs = clearL o'.instrs
  | _, _ => False

/-- Agreement of two switch-table outcomes. -/
def tableAgree :
    Except Err (Option RunOut × List (String × Mode × List Instruction)) →
    Except Err (Option RunOut × List (String × Mode × List Instruction)) → Prop
  | .error e, .error e' => e = e'
  | .ok (r, t), .ok (r', t') => optAgree r r' ∧ clearT t = clearT t'
  | _, _ => False

/-- Agreement between single-instruction outcomes is reflexive. -/
theorem execAgree_refl : ∀ x, execAgree x x := by
  intro x
  cases x with
  | error e => exact rfl
  | ok o => exact ⟨rfl, rfl, rfl, rfl⟩

/-- Consing cache-equal executed instructions onto agreeing runs keeps the
runs agreeing. -/
theorem consOut_agree (x' x : Instruction) (hx : clearI x' = clearI x)
    (R' R : Except Err RunOut) (hR : runAgree R' R) :
    runAgree (consOut x' R') (consOut x R) := by
  cases R' with
  | error e =>
    cases R with
    | error e' => exact hR
    | ok o => exact absurd hR (by simp [runAgree])
  | ok o' =>
    cases R with
    | error e => exact absurd hR (by simp [runAgree])
    | ok o =>
      obtain ⟨h1, h2, h3, h4, h5⟩ := hR
      exact ⟨h1, h2, h3, h4, by simp only [clearL]; rw [hx, h5]⟩

/-- The tail of the `Ignorable` execution: after the wrapped instruction
ran, move the named value from the result mapping to the stored
mapping. -/
def ignorableFinish (nm : Option String) : Except Err ExecOut → Except Err ExecOut
  | .error e => .error e
  | .ok out =>
    match nm with
    | some n =>
      if n = "" then .ok ⟨out.result, out.stored, .ignorable out.instr⟩
      else
        .ok ⟨out.result.delKey n,
             out.stored.setKey n ((out.result.getKey n).getD .undef),
             .ignorable out.instr⟩
    | none => .ok ⟨out.result, out.stored, .ignorable out.instr⟩

/-- Method `Ignorable.execute` decomposed: run the wrapped instruction, then move
its named value. -/
theorem execInstr_ignorable_eq (buf : Buf) (st : RunState) (inner : Instruction) :
    execInstr buf st (.ignorable inner) =
      ignorableFinish inner.nameOf (execInstr buf st inner) := by
  simp only [execInstr]
  cases execInstr buf st inner with
  | error e => rfl
  | ok out => rfl

/-- Moving the same name across agreeing outcomes keeps them agreeing. -/
theorem ignorableFinish_agree (nm : Option String) (X' X : Except Err ExecOut)
    (hX : execAgree X' X) :
    execAgree (ignorableFinish nm X') (ignorableFinish nm X) := by
  cases X' with
  | error e =>
    cases X with
    | error e' => exact hX
    | ok out => exact absurd hX (by simp [execAgree])
  | ok out' =>
    cases X with
    | error e => exact absurd hX (by simp [execAgree])
    | ok out =>
      obtain ⟨h1, h2, h3, h4⟩ := hX
      cases nm with
      | none =>
        exact ⟨h1, h2, by simp only [clearI]; rw [h3],
          by simp only [Instruction.sizeOfI]; exact h4⟩
      | some n =>
        by_cases hn : n = ""
        · simp only [ignorableFinish, hn, if_pos rfl]
          exact ⟨h1, h2, by simp only [clearI]; rw [h3],
            by simp only [Instruction.sizeOfI]; exact h4⟩
        · simp only [ignorableFinish, hn, if_neg hn]
          refine ⟨by rw [h1], by rw [h1, h2], by simp only [clearI]; rw [h3],
            by simp only [Instruction.sizeOfI]; exact h4⟩

/-- The tail of the `IfInstruction` true branch: merge the nested result
into the outer result mapping. -/
def ifFinish (p : ObjMap → Bool) (m : Mode) (res sto : ObjMap) :
    Except Err RunOut → Except Err ExecOut
  | .error e => .error e
  | .ok o => .ok ⟨res.spreadMerge o.result, sto, .ifI p m o.instrs⟩

/-- Method `IfInstruction.execute` decomposed: evaluate the predicate on the
merged mappings; when true, run the nested spec against the slice from
the current byte offset (cursor at bit 0) and merge; when false, leave
everything unchanged. -/
theorem execInstr_ifI_eq (buf : Buf) (st : RunState) (p : ObjMap → Bool)
    (m : Mode) (nested : List Instruction) :
    execInstr buf st (.ifI p m nested) =
      if p (st.result.spreadMerge st.stored) then
        ifFinish p m st.result st.stored
          (runList (buf.drop st.pos.bytes) ⟨.empty, .empty, ⟨0, 0⟩, m⟩ nested)
      else .ok ⟨st.result, st.stored, .ifI p m nested⟩ := by
  simp only [execInstr]
  by_cases hp : p (st.result.spreadMerge st.stored) = true
  · rw [if_pos hp, if_pos hp]
    cases runList (buf.drop st.pos.bytes) ⟨.empty, .empty, ⟨0, 0⟩, m⟩ nested with
    | error e => rfl
    | ok o => rfl
  · rw [if_neg hp, if_neg hp]

/-- Merging agreeing nested runs into the same outer state yields agreeing
outcomes. -/
theorem ifFinish_agree (p : ObjMap → Bool) (m : Mode) (res sto : ObjMap)
    (R' R : Except Err RunOut) (hR : runAgree R' R) :
    execAgree (ifFinish p m res sto R') (ifFinish p m res sto R) := by
  cases R' with
  | error e =>
    cases R with
    | error e' => exact hR
    | ok o => exact absurd hR (by simp [runAgree])
  | ok o' =>
    cases R with
    | error e => exact absurd hR (by simp [runAgree])
    | ok o =>
      obtain ⟨h1, h2, h3, h4, h5⟩ := hR
      exact ⟨by rw [h1], rfl, by simp only [clearI]; rw [h5], rfl⟩

/-- The tail of the switch execution: merge a matched branch, or run the
default program, or leave everything unchanged. -/
def switchFinish (kf : ObjMap → String) (dflt : Option (Mode × List Instruction))
    (res sto : ObjMap) (slice : Buf) :
    Except Err (Option RunOut × List (String × Mode × List Instruction)) →
    Except Err ExecOut
  | .error e => .error e
  | .ok (some o, table') => .ok ⟨res.spreadMerge o.result, sto, .switchI kf table' dflt⟩
  | .ok (none, table') =>
    match dflt with
    | some (m, prog) =>
      match runList slice ⟨.empty, .empty, ⟨0, 0⟩, m⟩ prog with
      | .error e => .error e
      | .ok o => .ok ⟨res.spreadMerge o.result, sto, .switchI kf table' (some (m, o.instrs))⟩
    | none => .ok ⟨res, sto, .switchI kf table' dflt⟩

/-- The switch execution decomposed: stringify the key on the merged
mappings, try the table, then the default. -/
theorem execInstr_switch_eq (buf : Buf) (st : RunState) (kf : ObjMap → String)
    (table : List (String × Mode × List Instruction))
    (dflt : Option (Mode × List Instruction)) :
    execInstr buf st (.switchI kf table dflt) =
      switchFinish kf dflt st.result st.stored (buf.drop st.pos.bytes)
        (execTable (buf.drop st.pos.bytes) (kf (st.result.spreadMerge st.stored)) table) := by
  cases dflt with
  | none =>
    simp only [execInstr]
    cases execTable (buf.drop st.pos.bytes) (kf (st.result.spreadMerge st.stored)) table with
    | error e => rfl
    | ok pair =>
      obtain ⟨r, table'⟩ := pair
      cases r with
      | some o => rfl
      | none => rfl
  | some md =>
    obtain ⟨mm, prog⟩ := md
    simp only [execInstr]
    cases execTable (buf.drop st.pos.bytes) (kf (st.result.spreadMerge st.stored)) table with
    | error e => rfl
    | ok pair =>
      obtain ⟨r, table'⟩ := pair
      cases r with
      | some o => rfl
      | none => dsimp only [switchFinish]

/-- Finishing a switch with no default from agreeing table outcomes yields
agreeing outcomes. -/
theorem switchFinish_agree_none (kf : ObjMap → String) (res sto : ObjMap)
    (slice : Buf)
    (R' R : Except Err (Option RunOut × List (String × Mode × List Instruction)))
    (hT : tableAgree R' R) :
    execAgree (switchFinish kf none res sto slice R')
      (switchFinish kf none res sto slice R) := by
  cases R' with
  | error e =>
    cases R with
    | error e' => exact hT
    | ok pr => exact absurd hT (by simp [tableAgree])
  | ok pr' =>
    cases R with
    | error e => exact absurd hT (by simp [tableAgree])
    | ok pr =>
      obtain ⟨r', t'⟩ := pr'
      obtain ⟨r, t⟩ := pr
      obtain ⟨hr, ht⟩ := hT
      cases r' with
      | some o' =>
        cases r with
        | some o =>
          obtain ⟨h1, h2, h3, h4, h5⟩ := hr
          exact ⟨by rw [h1], rfl, by simp only [clearI, clearD]; rw [ht], rfl⟩
        | none => exact absurd hr (by simp [optAgree])
      | none =>
        cases r with
        | some o => exact absurd hr (by simp [optAgree])
        | none =>
          exact ⟨rfl, rfl, by simp only [clearI, clearD]; rw [ht], rfl⟩

/-- Finishing a switch with a default program from agreeing table outcomes
yields agreeing outcomes, given that the cache-erased default program runs
in agreement with the original. -/
theorem switchFinish_agree_some (kf : ObjMap → String) (res sto : ObjMap)
    (slice : Buf) (mm : Mode) (prog : List Instruction)
    (R' R : Except Err (Option RunOut × List (String × Mode × List Instruction)))
    (hT : tableAgree R' R)
    (hD : runAgree (runList slice ⟨.empty, .empty, ⟨0, 0⟩, mm⟩ (clearL prog))
      (runList slice ⟨.empty, .empty, ⟨0, 0⟩, mm⟩ prog)) :
    execAgree (switchFinish kf (some (mm, clearL prog)) res sto slice R')
      (switchFinish kf (some (mm, prog)) res sto slice R) := by
  cases R' with
  | error e =>
    cases R with
    | error e' => exact hT
    | ok pr => exact absurd hT (by simp [tableAgree])
  | ok pr' =>
    cases R with
    | error e => exact absurd hT (by simp [tableAgree])
    | ok pr =>
      obtain ⟨r', t'⟩ := pr'
      obtain ⟨r, t⟩ := pr
      obtain ⟨hr, ht⟩ := hT
      cases r' with
      | some o' =>
        cases r with
        | some o =>
          obtain ⟨h1, h2, h3, h4, h5⟩ := hr
          refine ⟨by rw [h1], rfl, ?_, rfl⟩
          simp only [clearI, clearD]
          rw [ht, clearL_idem]
        | none => exact absurd hr (by simp [optAgree])
      | none =>
        cases r with
        | some o => exact absurd hr (by simp [optAgree])
        | none =>
          show execAgree
            (match runList slice ⟨.empty, .empty, ⟨0, 0⟩, mm⟩ (clearL prog) with
             | .error e => .error e
             | .ok o => .ok ⟨res.spreadMerge o.result, sto,
                 .switchI kf t' (some (mm, o.instrs))⟩)
            (match runList slice ⟨.empty, .empty, ⟨0, 0⟩, mm⟩ prog with
             | .error e => .error e
             | .ok o => .ok ⟨res.spreadMerge o.result, sto,
                 .switchI kf t (some (mm, o.instrs))⟩)
          cases hA : runList slice ⟨.empty, .empty, ⟨0, 0⟩, mm⟩ (clearL prog) with
          | error e =>
            cases hB : runList slice ⟨.empty, .empty, ⟨0, 0⟩, mm⟩ prog with
            | error e' =>
              rw [hB, hA] at hD
              exact hD
            | ok o =>
              rw [hB, hA] at hD
              exact absurd hD (by simp [runAgree])
          | ok o' =>
            cases hB : runList slice ⟨.empty, .empty, ⟨0, 0⟩, mm⟩ prog with
            | error e =>
              rw [hB, hA] at hD
              exact absurd hD (by simp [runAgree])
            | ok o =>
              rw [hB, hA] at hD
              obtain ⟨h1, h2, h3, h4, h5⟩ := hD
              exact ⟨by rw [h1], rfl, by simp only [clearI, clearD]; rw [ht, h5], rfl⟩

/-! ### Cache irrelevance -/

mutual

/-- Executing a cache-erased instruction agrees observably with executing
the original: pad caches never influence results, errors, or consumed
sizes. -/
theorem execInstr_clearAgree (buf : Buf) (st : RunState) :
    ∀ i, execAgree (execInstr buf st (clearI i)) (execInstr buf st i)
  | .fieldI n ty opts => execAgree_refl _
  | .literalI n v => execAgree_refl _
  | .deriveI n cb => execAgree_refl _
  | .skipI b => execAgree_refl _
  | .endiannessI m => execAgree_refl _
  | .padI c => ⟨rfl, rfl, rfl, rfl⟩
  | .ignorable inner => by
    have h := execInstr_clearAgree buf st inner
    show execAgree (execInstr buf st (.ignorable (clearI inner))) _
    rw [execInstr_ignorable_eq, execInstr_ignorable_eq, nameOf_clearI]
    exact ignorableFinish_agree inner.nameOf _ _ h
  | .ifI p m nested => by
    have h := runList_clearAgree (buf.drop st.pos.bytes) nested ⟨.empty, .empty, ⟨0, 0⟩, m⟩
    show execAgree (execInstr buf st (.ifI p m (clearL nested))) _
    rw [execInstr_ifI_eq, execInstr_ifI_eq]
    by_cases hp : p (st.result.spreadMerge st.stored) = true
    · rw [if_pos hp, if_pos hp]
      exact ifFinish_agree p m st.result st.stored _ _ h
    · rw [if_neg hp, if_neg hp]
      exact ⟨rfl, rfl, by simp only [clearI]; rw [clearL_idem], rfl⟩
  | .switchI kf table none => by
    show execAgree (execInstr buf st (.switchI kf (clearT table) none)) _
    rw [execInstr_switch_eq, execInstr_switch_eq]
    exact switchFinish_agree_none kf st.result st.stored _ _ _
      (execTable_clearAgree (buf.drop st.pos.bytes)
        (kf (st.result.spreadMerge st.stored)) table)
  | .switchI kf table (some (mm, prog)) => by
    show execAgree (execInstr buf st (.switchI kf (clearT table) (some (mm, clearL prog)))) _
    rw [execInstr_switch_eq, execInstr_switch_eq]
    exact switchFinish_agree_some kf st.result st.stored _ mm prog _ _
      (execTable_clearAgree (buf.drop st.pos.bytes)
        (kf (st.result.spreadMerge st.stored)) table)
      (runList_clearAgree (buf.drop st.pos.bytes) prog ⟨.empty, .empty, ⟨0, 0⟩, mm⟩)

/-- Running a cache-erased instruction list agrees observably with running
the original list from the same state. -/
theorem runList_clearAgree (buf : Buf) :
    ∀ l st, runAgree (runList buf st (clearL l)) (runList buf st l)
  | [], st => ⟨rfl, rfl, rfl, rfl, rfl⟩
  | i :: rest, st => by
    by_cases hend : ∃ m, i = .endiannessI m
    · obtain ⟨m', rfl⟩ := hend
      show runAgree (runList buf st (.endiannessI m' :: clearL rest)) _
      rw [runList_cons_endianness_consOut, runList_cons_endianness_consOut]
      exact consOut_agree _ _ rfl _ _ (runList_clearAgree buf rest { st with mode := m' })
    · push_neg at hend
      show runAgree (runList buf st (clearI i :: clearL rest)) _
      rw [runList_cons_generic_consOut buf st (clearI i) _
          (clearI_preserves_not_endianness i hend),
        runList_cons_generic_consOut buf st i _ hend]
      have hI := execInstr_clearAgree buf st i
      cases h1 : execInstr buf st (clearI i) with
      | error e =>
        cases h2 : execInstr buf st i with
        | error e2 =>
          rw [h1, h2] at hI
          exact hI
        | ok eo =>
          rw [h1, h2] at hI
          exact absurd hI (by simp [execAgree])
      | ok eo' =>
        cases h2 : execInstr buf st i with
        | error e =>
          rw [h1, h2] at hI
          exact absurd hI (by simp [execAgree])
        | ok eo =>
          rw [h1, h2] at hI
          obtain ⟨hres, hsto, hcl, hsz⟩ := hI
          dsimp only
          rw [hres, hsto, hsz]
          exact consOut_agree eo'.instr eo.instr hcl _ _
            (runList_clearAgree buf rest
              ⟨eo.result, eo.stored, st.pos.addOffset eo.instr.sizeOfI, st.mode⟩)

/-- Scanning a cache-erased switch table agrees observably with scanning
the original. -/
theorem execTable_clearAgree (buf : Buf) (key : String) :
    ∀ t, tableAgree (execTable buf key (clearT t)) (execTable buf key t)
  | [] => ⟨trivial, rfl⟩
  | (k, m, prog) :: rest => by
    show tableAgree (execTable buf key ((k, m, clearL prog) :: clearT rest)) _
    by_cases hk : k = key
    · simp only [execTable, if_pos hk]
      have h := runList_clearAgree buf prog ⟨.empty, .empty, ⟨0, 0⟩, m⟩
      cases h1 : runList buf ⟨.empty, .empty, ⟨0, 0⟩, m⟩ (clearL prog) with
      | error e =>
        cases h2 : runList buf ⟨.empty, .empty, ⟨0, 0⟩, m⟩ prog with
        | error e2 =>
          rw [h1, h2] at h
          exact h
        | ok o =>
          rw [h1, h2] at h
          exact absurd h (by simp [runAgree])
      | ok o' =>
        cases h2 : runList buf ⟨.empty, .empty, ⟨0, 0⟩, m⟩ prog with
        | error e =>
          rw [h1, h2] at h
          exact absurd h (by simp [runAgree])
        | ok o =>
          rw [h1, h2] at h
          obtain ⟨hres, hsto, hpos, hmode, hinstr⟩ := h
          exact ⟨⟨hres, hsto, hpos, hmode, hinstr⟩,
            by simp only [clearT]; rw [hinstr, clearT_idem]⟩
    · simp only [execTable, if_neg hk]
      have h := execTable_clearAgree buf key rest
      cases h1 : execTable buf key (clearT rest) with
      | error e =>
        cases h2 : execTable buf key rest with
        | error e2 =>
          rw [h1, h2] at h
          exact h
        | ok pr =>
          rw [h1, h2] at h
          exact absurd h (by simp [tableAgree])
      | ok pr' =>
        cases h2 : execTable buf key rest with
        | error e =>
          rw [h1, h2] at h
          exact absurd h (by simp [tableAgree])
        | ok pr =>
          obtain ⟨r', rest'⟩ := pr'
          obtain ⟨r, rest2⟩ := pr
          rw [h1, h2] at h
          obtain ⟨hr, ht⟩ := h
          exact ⟨hr, by simp only [clearT]; rw [clearL_idem, ht]⟩

end

/-! ### Skeleton preservation -/

mutual

/-- A successful execution returns an instruction object that differs from
the input only in pad caches. -/
theorem execInstr_skeleton (buf : Buf) (st : RunState) :
    ∀ i eo, execInstr buf st i = .ok eo → clearI eo.instr = clearI i
  | .fieldI n ty opts, eo => by
    intro h
    simp only [execInstr] at h
    cases hd : ty.decode buf st.pos st.mode with
    | error e => rw [hd] at h; cases h
    | ok v =>
      rw [hd] at h
      dsimp only at h
      cases hs : opts.shouldBe with
      | none =>
        rw [hs] at h
        dsimp only at h
        injection h with h2
        rw [← h2]
      | some e =>
        rw [hs] at h
        dsimp only at h
        by_cases hv : (match opts.thenFn with
          | some f => f v
          | none => v) = e
        · rw [if_pos hv] at h
          injection h with h2
          rw [← h2]
        · rw [if_neg hv] at h
          cases h
  | .literalI n v, eo => by
    intro h
    injection h with h2
    rw [← h2]
  | .ignorable inner, eo => by
    intro h
    rw [execInstr_ignorable_eq] at h
    cases h1 : execInstr buf st inner with
    | error e => rw [h1] at h; cases h
    | ok out =>
      rw [h1] at h
      have hskel := execInstr_skeleton buf st inner out h1
      cases hn : inner.nameOf with
      | none =>
        rw [hn] at h
        injection h with h2
        rw [← h2]
        simp only [clearI]
        rw [hskel]
      | some n =>
        rw [hn] at h
        dsimp only [ignorableFinish] at h
        by_cases he : n = ""
        · rw [if_pos he] at h
          injection h with h2
          rw [← h2]
          simp only [clearI]
          rw [hskel]
        · rw [if_neg he] at h
          injection h with h2
          rw [← h2]
          simp only [clearI]
          rw [hskel]
  | .deriveI n cb, eo => by
    intro h
    injection h with h2
    rw [← h2]
  | .skipI b, eo => by
    intro h
    injection h with h2
    rw [← h2]
  | .padI c, eo => by
    intro h
    injection h with h2
    rw [← h2]
    rfl
  | .endiannessI m, eo => by
    intro h
    injection h with h2
    rw [← h2]
  | .ifI p m nested, eo => by
    intro h
    rw [execInstr_ifI_eq] at h
    by_cases hp : p (st.result.spreadMerge st.stored) = true
    · rw [if_pos hp] at h
      cases h1 : runList (buf.drop st.pos.bytes) ⟨.empty, .empty, ⟨0, 0⟩, m⟩ nested with
      | error e => rw [h1] at h; cases h
      | ok o =>
        rw [h1] at h
        injection h with h2
        rw [← h2]
        simp only [clearI]
        rw [runList_skeleton (buf.drop st.pos.bytes) nested
          ⟨.empty, .empty, ⟨0, 0⟩, m⟩ o h1]
    · rw [if_neg hp] at h
      injection h with h2
      rw [← h2]
  | .switchI kf table dflt, eo => by
    intro h
    rw [execInstr_switch_eq] at h
    cases h1 : execTable (buf.drop st.pos.bytes)
        (kf (st.result.spreadMerge st.stored)) table with
    | error e => rw [h1] at h; cases h
    | ok pair =>
      obtain ⟨r, table'⟩ := pair
      have htab := execTable_skeleton (buf.drop st.pos.bytes)
        (kf (st.result.spreadMerge st.stored)) table r table' h1
      rw [h1] at h
      cases r with
      | some o =>
        injection h with h2
        rw [← h2]
        simp only [clearI]
        rw [htab]
      | none =>
        cases dflt with
        | none =>
          injection h with h2
          rw [← h2]
          simp only [clearI]
          rw [htab]
        | some md =>
          obtain ⟨mm, prog⟩ := md
          dsimp only [switchFinish] at h
          cases h2 : runList (buf.drop st.pos.bytes) ⟨.empty, .empty, ⟨0, 0⟩, mm⟩ prog with
          | error e => rw [h2] at h; cases h
          | ok o =>
            rw [h2] at h
            injection h with h3
            rw [← h3]
            simp only [clearI, clearD]
            rw [htab, runList_skeleton (buf.drop st.pos.bytes) prog
              ⟨.empty, .empty, ⟨0, 0⟩, mm⟩ o h2]

/-- A successful run returns instruction objects that differ from the
input list only in pad caches. -/
theorem runList_skeleton (buf : Buf) :
    ∀ l st o, runList buf st l = .ok o → clearL o.instrs = clearL l
  | [], st, o => by
    intro h
    unfold runList at h
    injection h with h2
    rw [← h2]
  | i :: rest, st, o => by
    intro h
    by_cases hend : ∃ m, i = .endiannessI m
    · obtain ⟨m', rfl⟩ := hend
      rw [runList_cons_endianness] at h
      cases h1 : runList buf { st with mode := m' } rest with
      | error e => rw [h1] at h; cases h
      | ok o1 =>
        rw [h1] at h
        injection h with h2
        rw [← h2]
        simp only [clearL]
        rw [runList_skeleton buf rest { st with mode := m' } o1 h1]
    · push_neg at hend
      rw [runList_cons_generic buf st i rest hend] at h
      cases h1 : execInstr buf st i with
      | error e => rw [h1] at h; cases h
      | ok eo =>
        rw [h1] at h
        dsimp only at h
        cases h2 : runList buf
            ⟨eo.result, eo.stored, st.pos.addOffset eo.instr.sizeOfI, st.mode⟩ rest with
        | error e => rw [h2] at h; cases h
        | ok o1 =>
          rw [h2] at h
          injection h with h3
          rw [← h3]
          simp only [clearL]
          rw [execInstr_skeleton buf st i eo h1,
            runList_skeleton buf rest _ o1 h2]

/-- A table scan returns a table that differs from the input only in pad
caches. -/
theorem execTable_skeleton (buf : Buf) (key : String) :
    ∀ t r t', execTable buf key t = .ok (r, t') → clearT t' = clearT t
  | [], r, t' => by
    intro h
    unfold execTable at h
    injection h with h2
    rw [← (Prod.mk.injEq _ _ _ _).mp h2.symm |>.2]
  | (k, m, prog) :: rest, r, t' => by
    intro h
    simp only [execTable] at h
    by_cases hk : k = key
    · rw [if_pos hk] at h
      cases h1 : runList buf ⟨.empty, .empty, ⟨0, 0⟩, m⟩ prog with
      | error e => rw [h1] at h; cases h
      | ok o =>
        rw [h1] at h
        injection h with h2
        have ht' := (Prod.mk.injEq _ _ _ _).mp h2.symm |>.2
        rw [ht']
        simp only [clearT]
        rw [runList_skeleton buf prog ⟨.empty, .empty, ⟨0, 0⟩, m⟩ o h1]
    · rw [if_neg hk] at h
      cases h1 : execTable buf key rest with
      | error e => rw [h1] at h; cases h
      | ok pr =>
        obtain ⟨r1, rest1⟩ := pr
        rw [h1] at h
        injection h with h2
        have ht' := (Prod.mk.injEq _ _ _ _).mp h2.symm |>.2
        rw [ht']
        simp only [clearT]
        rw [execTable_skeleton buf key rest r1 rest1 h1]

end

/-! ### Which instructions can touch a result key -/

mutual

/-- Whether executing this instruction can ever write or delete the result
mapping at key `k`. -/
def writesKI (k : String) : Instruction → Bool
  | .fieldI n _ _ => n = k
  | .literalI n _ => n = k
  | .ignorable inner => writesKI k inner
  | .deriveI n _ => n = k
  | .skipI _ => false
  | .padI _ => false
  | .endiannessI _ => false
  | .ifI _ _ nested => writesKL k nested
  | .switchI _ table dflt => writesKT k table || writesKD k dflt

/-- Whether any instruction of the list can touch the result at `k`. -/
def writesKL (k : String) : List Instruction → Bool
  | [] => false
  | i :: rest => writesKI k i || writesKL k rest

/-- Whether any branch of the table can touch the result at `k`. -/
def writesKT (k : String) : List (String × Mode × List Instruction) → Bool
  | [] => false
  | (_, _, prog) :: rest => writesKL k prog || writesKT k rest

/-- Whether the default program can touch the result at `k`. -/
def writesKD (k : String) : Option (Mode × List Instruction) → Bool
  | none => false
  | some (_, prog) => writesKL k prog

end

/-- An instruction named `k` is one that writes at `k`. -/
theorem nameOf_writes (k : String) :
    ∀ i, i.nameOf = some k → writesKI k i = true
  | .fieldI n ty opts => by
    intro h
    injection h with h2
    simp [writesKI, h2]
  | .literalI n v => by
    intro h
    injection h with h2
    simp [writesKI, h2]
  | .ignorable inner => by
    intro h
    simp only [Instruction.nameOf] at h
    simp only [writesKI]
    exact nameOf_writes k inner h
  | .deriveI n cb => by
    intro h
    injection h with h2
    simp [writesKI, h2]
  | .skipI b => by intro h; cases h
  | .padI c => by intro h; cases h
  | .endiannessI m => by intro h; cases h
  | .ifI p m nested => by intro h; cases h
  | .switchI kf table dflt => by intro h; cases h

mutual

/-- An instruction that cannot touch key `k` leaves the result mapping's
value at `k` unchanged. -/
theorem execInstr_preserves (buf : Buf) (st : RunState) :
    ∀ i eo k, execInstr buf st i = .ok eo → writesKI k i = false →
      eo.result.getKey k = st.result.getKey k
  | .fieldI n ty opts, eo, k => by
    intro h hw
    simp only [writesKI, decide_eq_false_iff_not] at hw
    simp only [execInstr] at h
    cases hd : ty.decode buf st.pos st.mode with
    | error e => rw [hd] at h; cases h
    | ok v =>
      rw [hd] at h
      dsimp only at h
      cases hs : opts.shouldBe with
      | none =>
        rw [hs] at h
        dsimp only at h
        injection h with h2
        rw [← h2]
        exact ObjMap.getKey_setKey_ne _ _ _ _ (fun hk => hw hk.symm)
      | some e =>
        rw [hs] at h
        dsimp only at h
        by_cases hv : (match opts.thenFn with
          | some f => f v
          | none => v) = e
        · rw [if_pos hv] at h
          injection h with h2
          rw [← h2]
          exact ObjMap.getKey_setKey_ne _ _ _ _ (fun hk => hw hk.symm)
        · rw [if_neg hv] at h
          cases h
  | .literalI n v, eo, k => by
    intro h hw
    simp only [writesKI, decide_eq_false_iff_not] at hw
    injection h with h2
    rw [← h2]
    exact ObjMap.getKey_setKey_ne _ _ _ _ (fun hk => hw hk.symm)
  | .ignorable inner, eo, k => by
    intro h hw
    simp only [writesKI] at hw
    rw [execInstr_ignorable_eq] at h
    cases h1 : execInstr buf st inner with
    | error e => rw [h1] at h; cases h
    | ok out =>
      rw [h1] at h
      have hpres := execInstr_preserves buf st inner out k h1 hw
      cases hn : inner.nameOf with
      | none =>
        rw [hn] at h
        injection h with h2
        rw [← h2]
        exact hpres
      | some n =>
        have hne : k ≠ n := by
          intro hk
          subst hk
          rw [nameOf_writes k inner hn] at hw
          cases hw
        rw [hn] at h
        dsimp only [ignorableFinish] at h
        by_cases he : n = ""
        · rw [if_pos he] at h
          injection h with h2
          rw [← h2]
          exact hpres
        · rw [if_neg he] at h
          injection h with h2
          rw [← h2]
          show (out.result.delKey n).getKey k = _
          rw [ObjMap.getKey_delKey_ne _ _ _ hne]
          exact hpres
  | .deriveI n cb, eo, k => by
    intro h hw
    simp only [writesKI, decide_eq_false_iff_not] at hw
    injection h with h2
    rw [← h2]
    exact ObjMap.getKey_setKey_ne _ _ _ _ (fun hk => hw hk.symm)
  | .skipI b, eo, k => by
    intro h hw
    injection h with h2
    rw [← h2]
  | .padI c, eo, k => by
    intro h hw
    injection h with h2
    rw [← h2]
  | .endiannessI m, eo, k => by
    intro h hw
    injection h with h2
    rw [← h2]
  | .ifI p m nested, eo, k => by
    intro h hw
    simp only [writesKI] at hw
    rw [execInstr_ifI_eq] at h
    by_cases hp : p (st.result.spreadMerge st.stored) = true
    · rw [if_pos hp] at h
      cases h1 : runList (buf.drop st.pos.bytes) ⟨.empty, .empty, ⟨0, 0⟩, m⟩ nested with
      | error e => rw [h1] at h; cases h
      | ok o =>
        rw [h1] at h
        injection h with h2
        rw [← h2]
        have hnone : o.result.getKey k = none :=
          runList_preserves (buf.drop st.pos.bytes) nested
            ⟨.empty, .empty, ⟨0, 0⟩, m⟩ o k h1 hw
        show (st.result.spreadMerge o.result).getKey k = _
        rw [ObjMap.getKey_spreadMerge,
          (ObjMap.lastVal_eq_none_iff o.result k).mpr hnone]
    · rw [if_neg hp] at h
      injection h with h2
      rw [← h2]
  | .switchI kf table dflt, eo, k => by
    intro h hw
    simp only [writesKI, Bool.or_eq_false_iff] at hw
    rw [execInstr_switch_eq] at h
    cases h1 : execTable (buf.drop st.pos.bytes)
        (kf (st.result.spreadMerge st.stored)) table with
    | error e => rw [h1] at h; cases h
    | ok pair =>
      obtain ⟨r, table'⟩ := pair
      rw [h1] at h
      cases r with
      | some o =>
        injection h with h2
        rw [← h2]
        have hnone : o.result.getKey k = none :=
          execTable_preserves (buf.drop st.pos.bytes)
            (kf (st.result.spreadMerge st.stored)) table (some o) table' k h1
            hw.1 o rfl
        show (st.result.spreadMerge o.result).getKey k = _
        rw [ObjMap.getKey_spreadMerge,
          (ObjMap.lastVal_eq_none_iff o.result k).mpr hnone]
      | none =>
        cases dflt with
        | none =>
          injection h with h2
          rw [← h2]
        | some md =>
          obtain ⟨mm, prog⟩ := md
          have hwp : writesKL k prog = false := hw.2
          dsimp only [switchFinish] at h
          cases h2 : runList (buf.drop st.pos.bytes)
              ⟨.empty, .empty, ⟨0, 0⟩, mm⟩ prog with
          | error e => rw [h2] at h; cases h
          | ok o =>
            rw [h2] at h
            injection h with h3
            rw [← h3]
            have hnone : o.result.getKey k = none :=
              runList_preserves (buf.drop st.pos.bytes) prog
                ⟨.empty, .empty, ⟨0, 0⟩, mm⟩ o k h2 hwp
            show (st.result.spreadMerge o.result).getKey k = _
            rw [ObjMap.getKey_spreadMerge,
              (ObjMap.lastVal_eq_none_iff o.result k).mpr hnone]

/-- A run whose instructions cannot touch key `k` leaves the result
mapping's value at `k` unchanged. -/
theorem runList_preserves (buf : Buf) :
    ∀ l st o k, runList buf st l = .ok o → writesKL k l = false →
      o.result.getKey k = st.result.getKey k
  | [], st, o, k => by
    intro h hw
    unfold runList at h
    injection h with h2
    rw [← h2]
  | i :: rest, st, o, k => by
    intro h hw
    simp only [writesKL, Bool.or_eq_false_iff] at hw
    by_cases hend : ∃ m, i = .endiannessI m
    · obtain ⟨m', rfl⟩ := hend
      rw [runList_cons_endianness] at h
      cases h1 : runList buf { st with mode := m' } rest with
      | error e => rw [h1] at h; cases h
      | ok o1 =>
        rw [h1] at h
        injection h with h2
        rw [← h2]
        exact runList_preserves buf rest { st with mode := m' } o1 k h1 hw.2
    · push_neg at hend
      rw [runList_cons_generic buf st i rest hend] at h
      cases h1 : execInstr buf st i with
      | error e => rw [h1] at h; cases h
      | ok eo =>
        rw [h1] at h
        dsimp only at h
        cases h2 : runList buf
            ⟨eo.result, eo.stored, st.pos.addOffset eo.instr.sizeOfI, st.mode⟩ rest with
        | error e => rw [h2] at h; cases h
        | ok o1 =>
          rw [h2] at h
          injection h with h3
          rw [← h3]
          have hstep := execInstr_preserves buf st i eo k h1 hw.1
          have hrest := runList_preserves buf rest
            ⟨eo.result, eo.stored, st.pos.addOffset eo.instr.sizeOfI, st.mode⟩ o1 k h2 hw.2
          rw [hrest]
          exact hstep

/-- A matched table branch whose programs cannot touch key `k` produces a
branch result with nothing at `k`. -/
theorem execTable_preserves (buf : Buf) (key : String) :
    ∀ t r t' k, execTable buf key t = .ok (r, t') → writesKT k t = false →
      ∀ o, r = some o → o.result.getKey k = none
  | [], r, t', k => by
    intro h hw o hr
    unfold execTable at h
    injection h with h2
    have hrn := (Prod.mk.injEq _ _ _ _).mp h2.symm |>.1
    rw [hrn] at hr
    cases hr
  | (k0, m, prog) :: rest, r, t', k => by
    intro h hw o hr
    simp only [writesKT, Bool.or_eq_false_iff] at hw
    simp only [execTable] at h
    by_cases hk : k0 = key
    · rw [if_pos hk] at h
      cases h1 : runList buf ⟨.empty, .empty, ⟨0, 0⟩, m⟩ prog with
      | error e => rw [h1] at h; cases h
      | ok o1 =>
        rw [h1] at h
        injection h with h2
        have hrr := (Prod.mk.injEq _ _ _ _).mp h2.symm |>.1
        rw [hrr] at hr
        injection hr with hro
        rw [← hro]
        exact runList_preserves buf prog ⟨.empty, .empty, ⟨0, 0⟩, m⟩ o1 k h1 hw.1
    · rw [if_neg hk] at h
      cases h1 : execTable buf key rest with
      | error e => rw [h1] at h; cases h
      | ok pr =>
        obtain ⟨r1, rest1⟩ := pr
        rw [h1] at h
        injection h with h2
        have hrr := (Prod.mk.injEq _ _ _ _).mp h2.symm |>.1
        rw [hrr] at hr
        exact execTable_preserves buf key rest r1 rest1 k h1 hw.2 o hr

end

/-! ### Claim theorems -/

/-- C1: contrary to the claim, the interpreter's `PadInstruction` executed
at bit offset 0 advances the cursor by a whole byte: `execute` sets
`_size = 8 - 0 = 8`, so `.pad()` on an aligned cursor moves from byte 0 to
byte 1 of a 1-byte buffer.  `PosBuffer.pad` — the behavior the claim (and
the spec) describe — leaves an aligned position unchanged; at a non-zero
bit offset both advance to the next byte boundary. -/
theorem padInstruction_advances_whole_byte_when_aligned :
    (PayloadSpec.mk .BE [.padI 0]).execFull [0xAB] =
      .ok ⟨.empty, .empty, ⟨1, 0⟩, .BE, [.padI 8]⟩ ∧
    (PosBuffer.mk [0xAB] 0 0 .BE).pad = PosBuffer.mk [0xAB] 0 0 .BE ∧
    (PayloadSpec.mk .BE [.fieldI "enabled" .boolT {}, .padI 0,
        .fieldI "count" .uint8 {}]).execFull [0x80, 0x02] =
      .ok ⟨[("enabled", .bool true), ("count", .num 2)], .empty, ⟨2, 0⟩, .BE,
           [.fieldI "enabled" .boolT {}, .padI 7, .fieldI "count" .uint8 {}]⟩ ∧
    (PosBuffer.mk [0x80, 0x02] 0 1 .BE).pad = PosBuffer.mk [0x80, 0x02] 1 0 .BE :=
  ⟨rfl, rfl, rfl, rfl⟩

/-- C2 counterexample: with the cursor on the last byte of a 2-byte buffer,
a UInt16 read implies byte offset 1 + 2 = 3 > 2, yet `PosBuffer.read` does
not throw its out-of-bounds read error before decoding — the guard
compares only the current byte offset against the last valid index and
ignores the data type's width (the error actually produced comes from the
decoder, not the cursor's bounds check). -/
theorem read_bounds_check_ignores_type_width :
    (1 + DataType.uint16.bitSize / 8 > ([0xAE, 0xC4] : Buf).length) ∧
    ¬ (PosBuffer.mk [0xAE, 0xC4] 1 0 .BE).readGuardFails ∧
    (PosBuffer.mk [0xAE, 0xC4] 1 0 .BE).read .uint16 {} = .error .decodeOob ∧
    Err.decodeOob ≠ Err.readOutside := by
  refine ⟨by decide, by decide, rfl, by decide⟩

/-- Every decoder failure is a bounds or alignment report, never the
cursor-level read error. -/
theorem decode_never_readOutside (ty : DataType) (buf : Buf) (p : Pos) (m : Mode) :
    DataType.decode ty buf p m ≠ .error .readOutside := by
  cases ty with
  | uint8 =>
    simp only [DataType.decode]
    split_ifs <;> simp
  | uint16 =>
    simp only [DataType.decode]
    split_ifs <;> simp
  | boolT =>
    simp only [DataType.decode]
    split_ifs <;> simp
  | bits w =>
    simp only [DataType.decode]
    split_ifs <;> simp

/-- C2 amended: the cursor's bounds check in `PosBuffer.read` throws the
out-of-bounds read error exactly when the current byte offset exceeds the
last valid byte index (`offsetBytes > length - 1`); the byte width of the
data type about to be decoded is not considered, so a multi-byte read
starting at the last byte passes the check and any overrun is reported
only by the decoder itself. -/
theorem read_throws_readOutside_iff_guard (pb : PosBuffer) (ty : DataType)
    (opts : FieldOptions) :
    pb.read ty opts = .error .readOutside ↔ pb.readGuardFails := by
  unfold PosBuffer.read
  by_cases hg : pb.readGuardFails
  · simp [hg]
  · simp only [hg, if_false]
    constructor
    · intro h
      cases hd : DataType.decode ty pb.buffer ⟨pb.offsetBytes, pb.offsetBits⟩ pb.mode with
      | error e =>
        rw [hd] at h
        dsimp only at h
        injection h with h2
        rw [h2] at hd
        exact absurd hd (decode_never_readOutside ty pb.buffer _ pb.mode)
      | ok v =>
        rw [hd] at h
        dsimp only at h
        cases h
    · intro h
      exact h.elim

/-- C2 amended, witness: reading one byte past a 1-byte buffer throws the
out-of-bounds read error. -/
theorem read_throws_readOutside_iff_guard_witness :
    (PosBuffer.mk [0xAE] 1 0 .BE).read .uint8 {} = .error .readOutside :=
  (read_throws_readOutside_iff_guard (PosBuffer.mk [0xAE] 1 0 .BE) .uint8 {}).mpr
    (by decide)

/-- C3: a Conditional or Switch whose branch is taken hands the nested
program the slice of the buffer from the outer byte offset with the
nested cursor at bit 0: the outer bit offset is not propagated (the
outcome is invariant in it), and on the cited test vector the nested
8-bit read returns the whole first byte 0xA1 = 161 rather than the 8 bits
following the outer 3-bit read. -/
theorem nested_program_starts_at_bit_zero :
    (∀ (buf : Buf) (r s : ObjMap) (byt b b' : Nat) (md : Mode)
        (p : ObjMap → Bool) (mm : Mode) (nested : List Instruction),
      execInstr buf ⟨r, s, ⟨byt, b⟩, md⟩ (.ifI p mm nested) =
        execInstr buf ⟨r, s, ⟨byt, b'⟩, md⟩ (.ifI p mm nested)) ∧
    (∀ (buf : Buf) (r s : ObjMap) (byt b b' : Nat) (md : Mode)
        (kf : ObjMap → String) (table : List (String × Mode × List Instruction))
        (dflt : Option (Mode × List Instruction)),
      execInstr buf ⟨r, s, ⟨byt, b⟩, md⟩ (.switchI kf table dflt) =
        execInstr buf ⟨r, s, ⟨byt, b'⟩, md⟩ (.switchI kf table dflt)) ∧
    (∀ (buf : Buf) (st : RunState) (p : ObjMap → Bool) (mm : Mode)
        (nested : List Instruction),
      execInstr buf st (.ifI p mm nested) =
        if p (st.result.spreadMerge st.stored) then
          ifFinish p mm st.result st.stored
            (runList (buf.drop st.pos.bytes) ⟨.empty, .empty, ⟨0, 0⟩, mm⟩ nested)
        else .ok ⟨st.result, st.stored, .ifI p mm nested⟩) ∧
    (PayloadSpec.mk .BE [.fieldI "type" (.bits 3) {},
        .ifI (fun _ => true) .BE [.fieldI "a1" (.bits 8) {}]]).execResult [0xA1, 0xD2] =
      .ok [("type", .num 5), ("a1", .num 161)] := by
  refine ⟨?_, ?_, ?_, rfl⟩
  · intro buf r s byt b b' md p mm nested
    rw [execInstr_ifI_eq, execInstr_ifI_eq]
  · intro buf r s byt b b' md kf table dflt
    rw [execInstr_switch_eq, execInstr_switch_eq]
  · intro buf st p mm nested
    exact execInstr_ifI_eq buf st p mm nested

/-- C4 counterexample: a program consisting of one 2-byte skip executed
against a 1-byte buffer succeeds (skips are not bounds-checked by the
interpreter) and leaves the final cursor at 16 bits, past the buffer's
8 bits. -/
theorem skip_leaves_cursor_past_buffer_end :
    (PayloadSpec.mk .BE [.skipI 2]).execFull [0x00] =
      .ok ⟨.empty, .empty, ⟨2, 0⟩, .BE, [.skipI 2]⟩ ∧
    (Pos.mk 2 0).totalBits > ([0x00] : Buf).length * 8 :=
  ⟨rfl, by decide⟩

/-- C4 amended: on success the final cursor position in bits equals the
sum of the executed instructions' consumed bits (pad sizes as computed at
execution time), but no bound by the buffer length holds: skips are not
bounds-checked, so a successful run may leave the cursor past the end. -/
theorem final_cursor_equals_sum_of_sizes (spec : PayloadSpec) (buf : Buf)
    (o : RunOut) (h : spec.execFull buf = .ok o) :
    o.pos.totalBits = sumSizes o.instrs := by
  have h2 := runList_totalBits buf spec.instructions
    ⟨.empty, .empty, ⟨0, 0⟩, spec.mode⟩ o h
  simpa [Pos.totalBits] using h2

/-- C4 amended, witness: a 3-bit read, a pad of 5 bits and an 8-bit read
leave the final cursor at exactly 3 + 5 + 8 = 16 bits. -/
theorem final_cursor_equals_sum_of_sizes_witness :
    ((PayloadSpec.mk .BE [.fieldI "days" (.bits 3) {}, .padI 0,
        .fieldI "frequency" .uint8 {}]).execFull [0xD0, 0x03] =
      .ok ⟨[("days", .num 6), ("frequency", .num 3)], .empty, ⟨2, 0⟩, .BE,
           [.fieldI "days" (.bits 3) {}, .padI 5, .fieldI "frequency" .uint8 {}]⟩) ∧
    (Pos.mk 2 0).totalBits =
      sumSizes [.fieldI "days" (.bits 3) {}, .padI 5, .fieldI "frequency" .uint8 {}] :=
  ⟨rfl, final_cursor_equals_sum_of_sizes
    ⟨.BE, [.fieldI "days" (.bits 3) {}, .padI 0, .fieldI "frequency" .uint8 {}]⟩
    [0xD0, 0x03]
    ⟨[("days", .num 6), ("frequency", .num 3)], .empty, ⟨2, 0⟩, .BE,
     [.fieldI "days" (.bits 3) {}, .padI 5, .fieldI "frequency" .uint8 {}]⟩ rfl⟩

/-- C5: the Conditional instruction evaluates its predicate on the spread
merge of the result and stored mappings; when false it leaves result,
stored mapping and (via its 0 size) the cursor untouched; when true it
runs the nested spec against the slice from the current byte offset and
merges the nested result into the outer result, collisions resolved in
favor of the nested values; nested errors propagate unchanged. -/
theorem if_instruction_semantics :
    (∀ (buf : Buf) (st : RunState) (p : ObjMap → Bool) (mm : Mode)
        (nested : List Instruction),
      p (st.result.spreadMerge st.stored) = false →
        execInstr buf st (.ifI p mm nested) =
          .ok ⟨st.result, st.stored, .ifI p mm nested⟩) ∧
    (∀ (buf : Buf) (st : RunState) (p : ObjMap → Bool) (mm : Mode)
        (nested : List Instruction) (o : RunOut),
      p (st.result.spreadMerge st.stored) = true →
      runList (buf.drop st.pos.bytes) ⟨.empty, .empty, ⟨0, 0⟩, mm⟩ nested = .ok o →
        execInstr buf st (.ifI p mm nested) =
          .ok ⟨st.result.spreadMerge o.result, st.stored, .ifI p mm o.instrs⟩) ∧
    (∀ (buf : Buf) (st : RunState) (p : ObjMap → Bool) (mm : Mode)
        (nested : List Instruction) (e : Err),
      p (st.result.spreadMerge st.stored) = true →
      runList (buf.drop st.pos.bytes) ⟨.empty, .empty, ⟨0, 0⟩, mm⟩ nested = .error e →
        execInstr buf st (.ifI p mm nested) = .error e) ∧
    (∀ (p : ObjMap → Bool) (mm : Mode) (nested : List Instruction),
      Instruction.sizeOfI (.ifI p mm nested) = 0) ∧
    (∀ (a b : ObjMap) (k : String), (b.map Prod.fst).Nodup →
      (a.spreadMerge b).getKey k =
        match b.getKey k with
        | some v => some v
        | none => a.getKey k) := by
  refine ⟨?_, ?_, ?_, fun p mm nested => rfl, ?_⟩
  · intro buf st p mm nested hp
    rw [execInstr_ifI_eq, if_neg (by simp [hp])]
  · intro buf st p mm nested o hp hrun
    rw [execInstr_ifI_eq, if_pos hp, hrun]
    rfl
  · intro buf st p mm nested e hp hrun
    rw [execInstr_ifI_eq, if_pos hp, hrun]
    rfl
  · intro a b k hnodup
    rw [ObjMap.getKey_spreadMerge, ObjMap.lastVal_eq_getKey_of_nodup b k hnodup]

/-- C5 witness: a false predicate leaves the state untouched; a true
predicate merges the nested read of the slice from byte offset 1. -/
theorem if_instruction_semantics_witness :
    (execInstr [0x01, 0x02] ⟨[("type", .num 1)], [], ⟨1, 0⟩, .BE⟩
        (.ifI (fun _ => false) .BE [.fieldI "a1" .uint8 {}]) =
      .ok ⟨[("type", .num 1)], [], .ifI (fun _ => false) .BE [.fieldI "a1" .uint8 {}]⟩) ∧
    (execInstr [0x01, 0x02] ⟨[("type", .num 1)], [], ⟨1, 0⟩, .BE⟩
        (.ifI (fun _ => true) .BE [.fieldI "a1" .uint8 {}]) =
      .ok ⟨ObjMap.spreadMerge [("type", .num 1)] [("a1", .num 2)], [],
           .ifI (fun _ => true) .BE [.fieldI "a1" .uint8 {}]⟩) :=
  ⟨if_instruction_semantics.1 [0x01, 0x02] ⟨[("type", .num 1)], [], ⟨1, 0⟩, .BE⟩
      (fun _ => false) .BE [.fieldI "a1" .uint8 {}] rfl,
   if_instruction_semantics.2.1 [0x01, 0x02] ⟨[("type", .num 1)], [], ⟨1, 0⟩, .BE⟩
      (fun _ => true) .BE [.fieldI "a1" .uint8 {}]
      ⟨[("a1", .num 2)], [], ⟨1, 0⟩, .BE, [.fieldI "a1" .uint8 {}]⟩ rfl rfl⟩

/-- C6: an endianness switch is intercepted by the dispatch loop — the
step is a pure mode update that calls no instruction handler, consumes 0
bits and leaves both mappings and the cursor unchanged — and switches are
monotonic: in `pre ++ [switch m'] ++ post`, the reads of `pre` run under
the incoming mode and the reads of `post` run under `m'`; the cited test
vector decodes 0xFF30 as 65328 both big- and little-endian. -/
theorem endianness_switch_monotonic :
    (∀ (buf : Buf) (st : RunState) (m' : Mode) (rest : List Instruction),
      runList buf st (.endiannessI m' :: rest) =
        consOut (.endiannessI m') (runList buf { st with mode := m' } rest)) ∧
    (∀ (buf : Buf) (st : RunState) (m' : Mode),
      runList buf st [.endiannessI m'] =
        .ok ⟨st.result, st.stored, st.pos, m', [.endiannessI m']⟩) ∧
    (∀ (m' : Mode), Instruction.sizeOfI (.endiannessI m') = 0) ∧
    (∀ (buf : Buf) (st : RunState) (m' : Mode) (pre post : List Instruction),
      runList buf st (pre ++ .endiannessI m' :: post) =
        match runList buf st pre with
        | .error e => .error e
        | .ok o =>
          match runList buf ⟨o.result, o.stored, o.pos, m'⟩ post with
          | .error e => .error e
          | .ok o2 => .ok ⟨o2.result, o2.stored, o2.pos, o2.mode,
              o.instrs ++ .endiannessI m' :: o2.instrs⟩) ∧
    ((PayloadSpec.mk .BE [.fieldI "countBE" .uint16 {}, .endiannessI .LE,
        .fieldI "countLE" .uint16 {}]).execResult [0xFF, 0x30, 0x30, 0xFF] =
      .ok [("countBE", .num 65328), ("countLE", .num 65328)]) := by
  refine ⟨runList_cons_endianness_consOut, ?_, fun m' => rfl, ?_, rfl⟩
  · intro buf st m'
    rfl
  · intro buf st m' pre post
    rw [runList_append]
    cases runList buf st pre with
    | error e => rfl
    | ok o =>
      dsimp only [contRun]
      rw [runList_cons_endianness_consOut]
      cases runList buf (⟨o.result, o.stored, o.pos, m'⟩ : RunState) post with
      | error e => rfl
      | ok o2 => rfl

/-- C7: a Derived-Field instruction stores, under its name, its callback
applied to the spread merge of the result and stored mappings as they are
at the moment of the call, consumes 0 bits, and the stored value is not
retroactively changed by later instructions that do not write that
name. -/
theorem derive_snapshot_semantics :
    (∀ (buf : Buf) (st : RunState) (n : String) (cb : ObjMap → Value),
      execInstr buf st (.deriveI n cb) =
        .ok ⟨st.result.setKey n (cb (st.result.spreadMerge st.stored)), st.stored,
             .deriveI n cb⟩) ∧
    (∀ (n : String) (cb : ObjMap → Value), Instruction.sizeOfI (.deriveI n cb) = 0) ∧
    (∀ (buf : Buf) (st : RunState) (n : String) (cb : ObjMap → Value)
        (rest : List Instruction) (o : RunOut),
      runList buf st (.deriveI n cb :: rest) = .ok o →
      writesKL n rest = false →
        o.result.getKey n = some (cb (st.result.spreadMerge st.stored))) := by
  refine ⟨fun buf st n cb => rfl, fun n cb => rfl, ?_⟩
  intro buf st n cb rest o h hw
  have hstep : execInstr buf st (.deriveI n cb) =
      .ok ⟨st.result.setKey n (cb (st.result.spreadMerge st.stored)), st.stored,
           .deriveI n cb⟩ := rfl
  rw [runList_cons_generic buf st (.deriveI n cb) rest (fun m hm => by cases hm),
    hstep] at h
  dsimp only at h
  cases h1 : runList buf
      ⟨st.result.setKey n (cb (st.result.spreadMerge st.stored)), st.stored,
       st.pos.addOffset (Instruction.sizeOfI (.deriveI n cb)), st.mode⟩ rest with
  | error e => rw [h1] at h; cases h
  | ok o1 =>
    rw [h1] at h
    injection h with h2
    rw [← h2]
    show o1.result.getKey n = _
    rw [runList_preserves buf rest _ o1 n h1 hw]
    exact ObjMap.getKey_setKey_self st.result n (cb (st.result.spreadMerge st.stored))

/-- C7 witness: a derived total computed from a stored factor keeps its
value after a later field write to a different name. -/
theorem derive_snapshot_semantics_witness :
    (⟨[("count", Value.num 2), ("total", Value.num 4), ("x", Value.num 7)],
      [("factor", Value.num 4)], ⟨1, 0⟩, .BE,
      [.deriveI "total" (fun r => (r.getKey "factor").getD .null),
       .fieldI "x" .uint8 {}]⟩ : RunOut).result.getKey "total" =
      some (Value.num 4) :=
  derive_snapshot_semantics.2.2 [0x07]
    ⟨[("count", .num 2)], [("factor", .num 4)], ⟨0, 0⟩, .BE⟩ "total"
    (fun r => (r.getKey "factor").getD .null) [.fieldI "x" .uint8 {}]
    ⟨[("count", Value.num 2), ("total", Value.num 4), ("x", Value.num 7)],
     [("factor", Value.num 4)], ⟨1, 0⟩, .BE,
     [.deriveI "total" (fun r => (r.getKey "factor").getD .null),
      .fieldI "x" .uint8 {}]⟩ rfl rfl

/-- C8: a successful execution mutates only the pad size caches of the
program's instruction objects, and executing the program again — in the
mutated state the first run left it in — produces a structurally equal
result mapping. -/
theorem exec_twice_equal_results (spec : PayloadSpec) (buf : Buf) (o1 : RunOut)
    (h : spec.execFull buf = .ok o1) :
    (PayloadSpec.mk spec.mode o1.instrs).execResult buf = .ok o1.result := by
  have hskel : clearL o1.instrs = clearL spec.instructions :=
    runList_skeleton buf spec.instructions ⟨.empty, .empty, ⟨0, 0⟩, spec.mode⟩ o1 h
  have h1 := runList_clearAgree buf spec.instructions
    ⟨.empty, .empty, ⟨0, 0⟩, spec.mode⟩
  have h2 := runList_clearAgree buf o1.instrs
    ⟨.empty, .empty, ⟨0, 0⟩, spec.mode⟩
  rw [hskel] at h2
  rw [show runList buf ⟨.empty, .empty, ⟨0, 0⟩, spec.mode⟩ spec.instructions =
      spec.execFull buf from rfl, h] at h1
  cases hc : runList buf ⟨.empty, .empty, ⟨0, 0⟩, spec.mode⟩ (clearL spec.instructions) with
  | error e =>
    rw [hc] at h1
    exact absurd h1 (by simp [runAgree])
  | ok oc =>
    rw [hc] at h1 h2
    obtain ⟨hr1, _, _, _, _⟩ := h1
    unfold PayloadSpec.execResult PayloadSpec.execFull
    cases hrun2 : runList buf ⟨.empty, .empty, ⟨0, 0⟩, spec.mode⟩ o1.instrs with
    | error e =>
      rw [hrun2] at h2
      exact absurd h2 (by simp [runAgree])
    | ok o2 =>
      rw [hrun2] at h2
      obtain ⟨hr2, _, _, _, _⟩ := h2
      simp only [Except.map]
      rw [← hr2, hr1]

/-- C8 witness: rerunning the bit-field/pad/byte-field program in the
pad-cache state its first run left behind yields the same result
mapping. -/
theorem exec_twice_equal_results_witness :
    (PayloadSpec.mk .BE [.fieldI "days" (.bits 3) {}, .padI 5,
        .fieldI "frequency" .uint8 {}]).execResult [0xD0, 0x03] =
      .ok [("days", Value.num 6), ("frequency", Value.num 3)] :=
  exec_twice_equal_results
    ⟨.BE, [.fieldI "days" (.bits 3) {}, .padI 0, .fieldI "frequency" .uint8 {}]⟩
    [0xD0, 0x03]
    ⟨[("days", .num 6), ("frequency", .num 3)], .empty, ⟨2, 0⟩, .BE,
     [.fieldI "days" (.bits 3) {}, .padI 5, .fieldI "frequency" .uint8 {}]⟩ rfl

/-- C9: a configured shouldBe mismatch aborts execution with a validation
error whose rendered message is exactly
`Expected <name> to be <expected> but was <actual>`, the comparison and
abort happening whenever the option is present — also for falsy expected
values 0, false and the empty string; matching values let execution
continue. -/
theorem shouldBe_message_contract :
    (∀ (n : String) (e a : Value),
      (Err.validation n e a).message =
        "Expected " ++ n ++ " to be " ++ e.show ++ " but was " ++ a.show) ∧
    (∀ (buf : Buf) (st : RunState) (n : String) (ty : DataType) (e v : Value),
      ty.decode buf st.pos st.mode = .ok v → v ≠ e →
        execInstr buf st (.fieldI n ty ⟨none, some e⟩) =
          .error (.validation n e v)) ∧
    ((PayloadSpec.mk .BE [.fieldI "frequency" .uint8 ⟨none, some (.num 3)⟩]).execResult
        [0x04] = .error (.validation "frequency" (.num 3) (.num 4))) ∧
    ((Err.validation "frequency" (.num 3) (.num 4)).message =
      "Expected frequency to be 3 but was 4") ∧
    ((PayloadSpec.mk .BE [.fieldI "frequency" .uint8 ⟨none, some (.num 0)⟩]).execResult
        [0x01] = .error (.validation "frequency" (.num 0) (.num 1))) ∧
    ((Err.validation "frequency" (.num 0) (.num 1)).message =
      "Expected frequency to be 0 but was 1") ∧
    ((PayloadSpec.mk .BE [.fieldI "enabled" .boolT ⟨none, some (.bool false)⟩]).execResult
        [0x80] = .error (.validation "enabled" (.bool false) (.bool true))) ∧
    ((Err.validation "enabled" (.bool false) (.bool true)).message =
      "Expected enabled to be false but was true") ∧
    ((PayloadSpec.mk .BE [.fieldI "name" .uint8
        ⟨some (fun _ => .str "x"), some (.str "")⟩]).execResult [0x00] =
      .error (.validation "name" (.str "") (.str "x"))) ∧
    ((Err.validation "name" (.str "") (.str "x")).message =
      "Expected name to be  but was x") ∧
    ((PayloadSpec.mk .BE [.fieldI "enabled" .boolT ⟨none, some (.bool true)⟩,
        .fieldI "days" (.bits 3) ⟨none, some (.num 5)⟩, .padI 0,
        .fieldI "frequency" .uint8 ⟨none, some (.num 3)⟩]).execResult [0xD0, 0x03] =
      .ok [("enabled", .bool true), ("days", .num 5), ("frequency", .num 3)]) := by
  refine ⟨fun n e a => rfl, ?_, rfl, rfl, rfl, rfl, rfl, rfl, rfl, rfl, rfl⟩
  intro buf st n ty e v hd hne
  simp only [execInstr, hd]
  rw [if_neg hne]

/-- C9 witness: decoding 4 against an expected 3 aborts with the named
validation error. -/
theorem shouldBe_message_contract_witness :
    execInstr [0x04] ⟨[], [], ⟨0, 0⟩, .BE⟩
        (.fieldI "frequency" .uint8 ⟨none, some (.num 3)⟩) =
      .error (.validation "frequency" (.num 3) (.num 4)) :=
  shouldBe_message_contract.2.1 [0x04] ⟨[], [], ⟨0, 0⟩, .BE⟩ "frequency" .uint8
    (.num 3) (.num 4) rfl (by decide)

/-- C10: in the spread merge `{ ...result, ...stored }` handed to derive
callbacks and if predicates, the stored mapping is spread second, so on a
key collision the stored mapping's value is the one observed. -/
theorem merged_mapping_stored_shadows_result :
    (∀ (a b : ObjMap) (k : String) (va vb : Value), (b.map Prod.fst).Nodup →
      a.getKey k = some va → b.getKey k = some vb →
        (a.spreadMerge b).getKey k = some vb) ∧
    (∀ (buf : Buf) (st : RunState) (n : String) (cb : ObjMap → Value),
      execInstr buf st (.deriveI n cb) =
        .ok ⟨st.result.setKey n (cb (st.result.spreadMerge st.stored)), st.stored,
             .deriveI n cb⟩) ∧
    (∀ (buf : Buf) (st : RunState) (p : ObjMap → Bool) (mm : Mode)
        (nested : List Instruction),
      execInstr buf st (.ifI p mm nested) =
        if p (st.result.spreadMerge st.stored) then
          ifFinish p mm st.result st.stored
            (runList (buf.drop st.pos.bytes) ⟨.empty, .empty, ⟨0, 0⟩, mm⟩ nested)
        else .ok ⟨st.result, st.stored, .ifI p mm nested⟩) := by
  refine ⟨?_, fun buf st n cb => rfl, fun buf st p mm nested => execInstr_ifI_eq buf st p mm nested⟩
  intro a b k va vb hnodup ha hb
  rw [ObjMap.getKey_spreadMerge, ObjMap.lastVal_eq_getKey_of_nodup b k hnodup, hb]

/-- C10 witness: with the key present in both mappings, the merged view
yields the stored mapping's value. -/
theorem merged_mapping_stored_shadows_result_witness :
    (ObjMap.spreadMerge [("x", Value.num 1)] [("x", Value.num 2)]).getKey "x" =
      some (Value.num 2) :=
  merged_mapping_stored_shadows_result.1 [("x", .num 1)] [("x", .num 2)] "x"
    (.num 1) (.num 2) (by simp) rfl rfl

end DestructJs
